import Mathlib

/-! # autel-jpg-to-thermal: temperature encoding and image composition

A shallow embedding of `src/batch_ir2tif.cpp` (the range-normalized batch tool)
and `src/lib_ir_converter.cpp` (the fixed-offset library), with the properties
of the encoders, the sanitizers, the channel composer, the batch loop and the
metadata export.

Float arithmetic is read as exact unless said otherwise: a finite `float` is a
rational number, and a reading can also be NaN or an infinity.  The
fixed-offset encoder is also evaluated in IEEE-754 binary32 (`encodeFixedF32`),
where the stored code is compared with its specified formula.  Unsigned 16-bit
values are naturals.
-/

namespace AutelThermal

/-! ## Float readings -/

/-- A `float` cell of the decoded temperature grid. -/
inductive Reading where
  | nan : Reading
  | posInf : Reading
  | negInf : Reading
  | fin (q : ℚ) : Reading
deriving DecidableEq

/-- The constant `INVALID_THRESHOLD = 65000.0f` of `batch_ir2tif.cpp`. -/
def INVALID_THRESHOLD : ℚ := 65000

/-- The shipped constant `GLOBAL_TEMP_MIN = 12.80f`. -/
def GLOBAL_TEMP_MIN : ℚ := 64 / 5

/-- The shipped constant `GLOBAL_TEMP_MAX = 138.70f`. -/
def GLOBAL_TEMP_MAX : ℚ := 1387 / 10

/-- The conversion `static_cast<uint16_t>(f)` of a finite float: the fraction is
discarded (truncation toward zero).  Both pipelines clamp before converting, so
the truncated value always fits; outside `[0, 65536)`, where C++ leaves the
conversion undefined, the integer is taken modulo `2^16`. -/
def castU16 (f : ℚ) : ℕ :=
  ((if 0 ≤ f then ⌊f⌋ else ⌈f⌉) % 65536).toNat

/-! ## Range-normalized pipeline (`batch_ir2tif.cpp`, `processImage`) -/

/-- Lines 61-64 of `processImage`: a NaN, infinite or `>= INVALID_THRESHOLD`
reading is replaced by the configured minimum. -/
def filterInvalid (gmin : ℚ) : Reading → ℚ
  | Reading.nan => gmin
  | Reading.posInf => gmin
  | Reading.negInf => gmin
  | Reading.fin q => if INVALID_THRESHOLD ≤ q then gmin else q

/-- Lines 66-72 of `processImage`: clamp to the global range, scale to
`0..65535`, add `0.5` and convert to `uint16_t`. -/
def encodeRange (gmin gmax tempVal : ℚ) : ℕ :=
  let tempRange := gmax - gmin
  let clamped := max gmin (min gmax tempVal)
  castU16 (((clamped - gmin) / tempRange) * 65535 + 1 / 2)

/-- The body of the pixel loop of `processImage` (lines 59-73): the band-4 code
stored for the grid cell `tempVal`. -/
def thermalCode (gmin gmax : ℚ) (tempVal : Reading) : ℕ :=
  encodeRange gmin gmax (filterInvalid gmin tempVal)

/-- The decode formula printed by `main` in the summary:
`temp_celsius = (band4_value / 65535.0) * (max - min) + min`. -/
def decodeRange (gmin gmax : ℚ) (band4 : ℕ) : ℚ :=
  ((band4 : ℚ) / 65535) * (gmax - gmin) + gmin

/-! ## Fixed-offset pipeline (`lib_ir_converter.cpp`) -/

/-- The function `sanitizeTemp`: NaN, infinite or `>= 60000.0f` becomes the
error value `-273.15f`. -/
def sanitizeTemp : Reading → ℚ
  | Reading.nan => -27315 / 100
  | Reading.posInf => -27315 / 100
  | Reading.negInf => -27315 / 100
  | Reading.fin q => if 60000 ≤ q then -27315 / 100 else q

/-- Lines 58-63 of `ConvertToTiff` with the arithmetic read as exact:
`temp * 100 + 10000`, clamped to `[0, 65535]`, plus `0.5`, converted to
`uint16_t`.  The same lines in `float` arithmetic are `encodeFixedF32`. -/
def encodeFixed (tempVal : ℚ) : ℕ :=
  let encodedFloat := tempVal * 100 + 10000
  let clamped := max 0 (min 65535 encodedFloat)
  castU16 (clamped + 1 / 2)

/-- The body of the pixel loop of `ConvertToTiff` (lines 53-63). -/
def fixedCode (tempVal : Reading) : ℕ :=
  encodeFixed (sanitizeTemp tempVal)

/-- The inverse formula of the fixed-offset encoding,
`t_celsius = (encoded - 10000) / 100`. -/
def decodeFixed (encoded : ℕ) : ℚ :=
  ((encoded : ℚ) - 10000) / 100

/-- Round half away from zero, the rounding the specification names. -/
def roundHalfAway (x : ℚ) : ℤ :=
  if 0 ≤ x then ⌊x + 1 / 2⌋ else ⌈x - 1 / 2⌉

/-- The fixed-offset encoder as the specification words it:
`round(t * 100 + 10000)`, then clamp to `[0, 65535]`. -/
def specEncodeFixed (t : ℚ) : ℕ :=
  (max 0 (min 65535 (roundHalfAway (t * 100 + 10000)))).toNat

/-! ## The fixed-offset encoder in `float` arithmetic

The definitions above read the arithmetic as exact.  The ones below evaluate
lines 58-63 of `ConvertToTiff` as the program does, in IEEE-754 binary32:
every operation is rounded on its own to the nearest float, ties to even. -/

/-- Round to the nearest integer, ties to the even one. -/
def roundNearestEven (q : ℚ) : ℤ :=
  if q - ⌊q⌋ < 1 / 2 then ⌊q⌋
  else if 1 / 2 < q - ⌊q⌋ then ⌊q⌋ + 1
  else if ⌊q⌋ % 2 = 0 then ⌊q⌋ else ⌊q⌋ + 1

/-- The exponent of the unit in the last place of a binary32 number of the
size of `x`: 24 significant bits, least exponent `-149` (subnormals). -/
def ulpExp (x : ℚ) : ℤ := max (Int.log 2 |x| - 23) (-149)

/-- The real number `x` rounded to the binary32 grid (round to nearest, ties to
even), before the overflow test. -/
def quantize (x : ℚ) : ℚ :=
  (roundNearestEven (x / 2 ^ ulpExp x) : ℚ) * 2 ^ ulpExp x

/-- The `float` result of an operation whose exact result is `x`: the rounded
value, or an infinity when it reaches `2^128`. -/
def roundF32 (x : ℚ) : Reading :=
  if (2 : ℚ) ^ (128 : ℤ) ≤ |quantize x| then
    (if 0 < x then Reading.posInf else Reading.negInf)
  else Reading.fin (quantize x)

/-- The `float` product `a * b` of a finite float and a finite constant. -/
def mulF32 (a b : ℚ) : Reading := roundF32 (a * b)

/-- The `float` sum `a + b` of a float and a finite constant. -/
def addF32 (a : Reading) (b : ℚ) : Reading :=
  match a with
  | Reading.fin x => roundF32 (x + b)
  | Reading.posInf => Reading.posInf
  | Reading.negInf => Reading.negInf
  | Reading.nan => Reading.nan

/-- The call `std::min(c, x)`, which is `(x < c) ? x : c`. -/
def minF32 (c : ℚ) (x : Reading) : Reading :=
  match x with
  | Reading.fin q => if q < c then Reading.fin q else Reading.fin c
  | Reading.negInf => Reading.negInf
  | Reading.posInf => Reading.fin c
  | Reading.nan => Reading.fin c

/-- The call `std::max(c, x)`, which is `(c < x) ? x : c`. -/
def maxF32 (c : ℚ) (x : Reading) : Reading :=
  match x with
  | Reading.fin q => if c < q then Reading.fin q else Reading.fin c
  | Reading.posInf => Reading.posInf
  | Reading.negInf => Reading.fin c
  | Reading.nan => Reading.fin c

/-- The conversion `static_cast<uint16_t>(x)` of a float; a non-finite operand
(undefined in C++, never reached after the clamp) gives `0`. -/
def castU16F32 (x : Reading) : ℕ :=
  match x with
  | Reading.fin q => castU16 q
  | _ => 0

/-- The `float` value `encodedFloat` of line 58 of `ConvertToTiff`,
`(tempVal * 100.0f) + 10000.0f`, each operation rounded to binary32. -/
def encodedFloatF32 (tempVal : ℚ) : Reading :=
  addF32 (mulF32 tempVal 100) 10000

/-- Lines 58-63 of `ConvertToTiff` in `float` arithmetic: the code stored for
the sanitized finite float `tempVal`. -/
def encodeFixedF32 (tempVal : ℚ) : ℕ :=
  let encodedFloat := encodedFloatF32 tempVal
  let clamped := maxF32 0 (minF32 65535 encodedFloat)
  castU16F32 (addF32 clamped (1 / 2))

/-- The specified value for a computed float `x`: round half away from zero,
then clamp to `[0, 65535]`; an infinity clamps to the nearer end. -/
def specClampRound (x : Reading) : ℕ :=
  match x with
  | Reading.fin q => (max 0 (min 65535 (roundHalfAway q))).toNat
  | Reading.posInf => 65535
  | Reading.negInf => 0
  | Reading.nan => 0

/-! ## Images (`cv::Mat`) and the OpenCV operations the pipelines call

OpenCV is an external library; `split`, `convertTo` and `merge` follow its
documented behaviour on the dense row-major layout with interleaved channels. -/

/-- A `cv::Mat` holding unsigned integer samples: the sample of channel `c` at
row `y`, column `x` is `data[(y * cols + x) * channels + c]`. -/
structure Mat where
  rows : ℕ
  cols : ℕ
  channels : ℕ
  data : List ℕ
deriving DecidableEq

namespace Mat

/-- The test `cv::Mat::empty()`: the matrix has no elements. -/
def empty (m : Mat) : Bool := decide (m.rows * m.cols = 0)

/-- The sample `m.at(y, x)[c]`. -/
def sample (m : Mat) (y x c : ℕ) : ℕ :=
  m.data.getD ((y * m.cols + x) * m.channels + c) 0

/-- The constructor `cv::Mat(h, w, CV_16U)`: a single-channel `h x w` matrix (its
samples are unspecified until written; zero here). -/
def create (h w : ℕ) : Mat :=
  { rows := h, cols := w, channels := 1, data := List.replicate (h * w) 0 }

/-- The assignment `m.at<uint16_t>(y, x) = v` on a single-channel matrix. -/
def setAt (m : Mat) (y x v : ℕ) : Mat :=
  { m with data := m.data.set (y * m.cols + x) v }

end Mat

/-- The conversion `cv::saturate_cast<ushort>` of a non-negative integer. -/
def saturateU16 (v : ℕ) : ℕ := min v 65535

/-- The call `cv::split(m, planes)`: one single-channel plane per channel. -/
def split (m : Mat) : List Mat :=
  (List.range m.channels).map fun c =>
    { rows := m.rows, cols := m.cols, channels := 1,
      data := (List.range (m.rows * m.cols)).map fun i => m.data.getD (i * m.channels + c) 0 }

/-- The call `src.convertTo(dst, CV_16U, alpha)` with an integer `alpha`: every
sample becomes `saturate_cast<ushort>(sample * alpha)`. -/
def convertTo16U (src : Mat) (alpha : ℕ) : Mat :=
  { src with data := src.data.map fun v => saturateU16 (v * alpha) }

/-- The call `cv::merge(planes, dst)` on single-channel planes of one size:
sample `k` of the result is channel `k % n` of pixel `k / n`, `n` the number
of planes. -/
def merge (planes : List Mat) : Mat :=
  match planes with
  | [] => { rows := 0, cols := 0, channels := 0, data := [] }
  | p :: _ =>
    { rows := p.rows, cols := p.cols, channels := planes.length,
      data := (List.range (p.rows * p.cols * planes.length)).map fun k =>
        ((planes.getD (k % planes.length) p).data).getD (k / planes.length) 0 }

/-! ## The thermal decoder boundary (`Autel_IrTempParser.h`) -/

/-- The struct `QPointF` of the SDK header. -/
structure QPointF where
  x : ℤ
  y : ℤ
deriving DecidableEq

/-- The struct `TempStatInfo` of the SDK header. -/
structure TempStatInfo where
  max : Reading
  min : Reading
  avg : Reading
  maxPoint : QPointF
  minPoint : QPointF
deriving DecidableEq

/-- The struct `Autel_IR_INFO_S` of the SDK header. -/
structure Autel_IR_INFO_S where
  tag : ℕ
  len : ℕ
  show_value : String
  str_value : String
  num_value : ℤ
deriving DecidableEq

/-- What one call of `GetIrPhotoTempInfo` hands back: the return code and the
three output parameters. -/
structure ThermalInfo where
  ret : ℤ
  tempStatInfo : TempStatInfo
  metadata : List (String × Autel_IR_INFO_S)
  tempArray : List (List Reading)

/-- A value of `nlohmann::json`, as far as `GetMetadataJSON` builds one. -/
inductive Json where
  | null : Json
  | number (r : Reading) : Json
  | integer (i : ℤ) : Json
  | string (s : String) : Json
  | object (fields : List (String × Json)) : Json

/-- The external collaborators of the pipelines: the image codec, the resampler,
the proprietary decoder and the JSON serializer. -/
structure Env where
  imread : String → Mat
  resize : Mat → ℕ → ℕ → Mat
  GetIrPhotoTempInfo : String → ℕ → ℕ → ThermalInfo
  imwrite : String → Mat → Bool
  dump : Json → String

/-- The per-image steps a run performs on the outside world, in order. -/
inductive Event where
  | imread (path : String) : Event
  | resize (path : String) : Event
  | decode (path : String) : Event
  | imwrite (path : String) (image : Mat) : Event
deriving DecidableEq

/-- Whether the event writes an output TIFF. -/
def Event.isWrite : Event → Bool
  | Event.imwrite _ _ => true
  | _ => false

/-- Whether the event is the RGB load of an image. -/
def Event.isLoad : Event → Bool
  | Event.imread _ => true
  | _ => false

/-- The cell `tempArray[y][x]` of the decoded grid. -/
def tempAt (tempArray : List (List Reading)) (y x : ℕ) : Reading :=
  (tempArray.getD y []).getD x Reading.nan

/-! ## `processImage` and `main` of `batch_ir2tif.cpp` -/

/-- The inner loop `for (x = 0; x < w; ++x)` of `processImage` for row `y`. -/
def fillRow (gmin gmax : ℚ) (tempArray : List (List Reading)) (w y : ℕ) (band : Mat) : Mat :=
  (List.range w).foldl
    (fun b x => b.setAt y x (thermalCode gmin gmax (tempAt tempArray y x))) band

/-- The outer loop `for (y = 0; y < h; ++y)` of `processImage`. -/
def fillBand (gmin gmax : ℚ) (tempArray : List (List Reading)) (w h : ℕ) (band : Mat) : Mat :=
  (List.range h).foldl (fun b y => fillRow gmin gmax tempArray w y b) band

/-- Lines 77-93 of `processImage` (and 67-83 of `ConvertToTiff`): split the RGB
image, convert each of the three channels to 16 bits with factor `257`, append
the thermal band and merge the four planes. -/
def composeChannels (rgbImage thermalBand : Mat) : Mat :=
  let rgbChannels := split rgbImage
  let outputChannels :=
    (List.range 3).map fun i => convertTo16U (rgbChannels.getD i (Mat.create 0 0)) 257
  merge (outputChannels ++ [thermalBand])

/-- The function `processImage` of `batch_ir2tif.cpp`, with the global range as
parameters: the returned flag and the steps performed. -/
def processImage (env : Env) (gmin gmax : ℚ) (inputPath outputPath : String)
    (w h : ℕ) : Bool × List Event :=
  let loaded := env.imread inputPath
  if loaded.empty then (false, [Event.imread inputPath])
  else
    let resized := loaded.cols ≠ w ∨ loaded.rows ≠ h
    let rgbImage := if resized then env.resize loaded w h else loaded
    let pre := if resized then [Event.imread inputPath, Event.resize inputPath]
      else [Event.imread inputPath]
    let info := env.GetIrPhotoTempInfo inputPath w h
    if info.ret ≠ 0 then (false, pre ++ [Event.decode inputPath])
    else
      let tempRange := gmax - gmin
      if tempRange ≤ 0 then (false, pre ++ [Event.decode inputPath])
      else
        let thermalBand := fillBand gmin gmax info.tempArray w h (Mat.create h w)
        let output4Channel := composeChannels rgbImage thermalBand
        if env.imwrite outputPath output4Channel = false then
          (false, pre ++ [Event.decode inputPath, Event.imwrite outputPath output4Channel])
        else
          (true, pre ++ [Event.decode inputPath, Event.imwrite outputPath output4Channel])

/-- An entry of `fs::directory_iterator(inputDir)` with the parts of its path
that `main` reads. -/
structure DirEntry where
  path : String
  stem : String
  extension : String
deriving DecidableEq

/-- The call `std::transform(.., ::tolower)` on a string. -/
def toLower (s : String) : String := String.mk (s.data.map Char.toLower)

/-- The test `ext == ".jpg" || ext == ".jpeg"` on the lower-cased extension. -/
def isJpeg (entry : DirEntry) : Bool :=
  toLower entry.extension == ".jpg" || toLower entry.extension == ".jpeg"

/-- The counters of `main` and the steps performed so far. -/
structure BatchState where
  totalCount : ℕ
  successCount : ℕ
  events : List Event

/-- One iteration of the directory loop of `main`. -/
def batchStep (env : Env) (gmin gmax : ℚ) (outputDir : String)
    (st : BatchState) (entry : DirEntry) : BatchState :=
  if isJpeg entry then
    let outputPath := outputDir ++ "/" ++ entry.stem ++ ".tif"
    let r := processImage env gmin gmax entry.path outputPath 640 512
    { totalCount := st.totalCount + 1,
      successCount := if r.1 then st.successCount + 1 else st.successCount,
      events := st.events ++ r.2 }
  else st

/-- The function `main` of `batch_ir2tif.cpp` up to its reporting: the exit code
and the final counters and steps.  `listing` is what the directory iterator
yields for the input directory; console and summary output are left out. -/
def main (env : Env) (gmin gmax : ℚ) (argv : List String)
    (listing : String → List DirEntry) : ℤ × BatchState :=
  let inputDir := if 2 ≤ argv.length then argv.getD 1 "" else "../images"
  let outputDir := if 3 ≤ argv.length then argv.getD 2 "" else "../output_tifs"
  let final := (listing inputDir).foldl (batchStep env gmin gmax outputDir)
    { totalCount := 0, successCount := 0, events := [] }
  (0, final)

/-! ## `ConvertToTiff` and `GetMetadataJSON` of `lib_ir_converter.cpp` -/

/-- The pixel loops of `ConvertToTiff` (lines 51-65). -/
def fillBandFixed (tempArray : List (List Reading)) (w h : ℕ) (band : Mat) : Mat :=
  (List.range h).foldl (fun b y =>
    (List.range w).foldl (fun b x => b.setAt y x (fixedCode (tempAt tempArray y x))) b) band

/-- The function `ConvertToTiff`: the status code and the image handed to
`imwrite`, if the run gets that far. -/
def ConvertToTiff (env : Env) (inputPath outputPath : String) : ℤ × Option Mat :=
  let w := 640
  let h := 512
  let loaded := env.imread inputPath
  if loaded.empty then (-1, none)
  else
    let rgbImage := if loaded.cols ≠ w ∨ loaded.rows ≠ h then env.resize loaded w h else loaded
    let info := env.GetIrPhotoTempInfo inputPath w h
    if info.ret ≠ 0 then (-2, none)
    else
      let thermalBand := fillBandFixed info.tempArray w h (Mat.create h w)
      let output4Channel := composeChannels rgbImage thermalBand
      if env.imwrite outputPath output4Channel = false then (-3, some output4Channel)
      else (0, some output4Channel)

/-- The value of a signed `int` after conversion to `size_t` of `bits` bits. -/
def toSizeT (bits : ℕ) (i : ℤ) : ℕ := (i % (2 : ℤ) ^ bits).toNat

/-- The metadata object of `GetMetadataJSON` (lines 112-120): an entry shows its
text unless the text is still `"NA"`, then its number. -/
def metaJson (metadata : List (String × Autel_IR_INFO_S)) : Json :=
  if metadata.isEmpty then Json.null
  else Json.object (metadata.map fun kv =>
    (kv.1, if kv.2.show_value ≠ "NA" then Json.string kv.2.show_value
      else Json.integer kv.2.num_value))

/-- The object `j` of `GetMetadataJSON` (lines 102-121). -/
def metadataPayload (info : ThermalInfo) : Json :=
  Json.object
    [("stats", Json.object
      [("min", Json.number info.tempStatInfo.min),
       ("max", Json.number info.tempStatInfo.max),
       ("avg", Json.number info.tempStatInfo.avg),
       ("min_point", Json.object [("x", Json.integer info.tempStatInfo.minPoint.x),
                                  ("y", Json.integer info.tempStatInfo.minPoint.y)]),
       ("max_point", Json.object [("x", Json.integer info.tempStatInfo.maxPoint.x),
                                  ("y", Json.integer info.tempStatInfo.maxPoint.y)])]),
     ("metadata", metaJson info.metadata)]

/-- The call `strcpy_s(dest, destSize, src)`: the copied text, or `none` when the
runtime's invalid-parameter handler is invoked (the text and its terminator do
not fit in `destSize`). -/
def strcpy_s (destSize : ℕ) (src : String) : Option String :=
  if src.utf8ByteSize + 1 ≤ destSize then some src else none

/-- The function `GetMetadataJSON` for a `size_t` of `bits` bits: the status
code and what was written to the buffer (`none`: nothing written).  The result
is `none` when `strcpy_s` invokes the invalid-parameter handler. -/
def GetMetadataJSON (env : Env) (bits : ℕ) (inputPath : String) (bufferLen : ℤ) :
    Option (ℤ × Option String) :=
  let info := env.GetIrPhotoTempInfo inputPath 640 512
  if info.ret ≠ 0 then some (-1, none)
  else
    let jsonStr := env.dump (metadataPayload info)
    if (jsonStr.utf8ByteSize + 1) % 2 ^ bits > toSizeT bits bufferLen then some (-2, none)
    else
      match strcpy_s (toSizeT bits bufferLen) jsonStr with
      | some written => some (0, some written)
      | none => none

/-! ## Concrete scenarios -/

/-- An all-zero `640 x 512` three-channel 8-bit image. -/
def zeroImage : Mat :=
  { rows := 512, cols := 640, channels := 3, data := List.replicate (512 * 640 * 3) 0 }

/-- A `640 x 512` temperature grid uniformly at `50.0`. -/
def uniformGrid : List (List Reading) :=
  List.replicate 512 (List.replicate 640 (Reading.fin 50))

/-- Statistics of no interest to the scenarios. -/
def zeroStats : TempStatInfo :=
  { max := Reading.fin 0, min := Reading.fin 0, avg := Reading.fin 0,
    maxPoint := { x := 0, y := 0 }, minPoint := { x := 0, y := 0 } }

/-- A world in which every path holds the all-zero image with the uniform grid,
every write succeeds and the serializer yields `{}`. -/
def scenarioEnv : Env :=
  { imread := fun _ => zeroImage,
    resize := fun m _ _ => m,
    GetIrPhotoTempInfo := fun _ _ _ =>
      { ret := 0, tempStatInfo := zeroStats, metadata := [], tempArray := uniformGrid },
    imwrite := fun _ _ => true,
    dump := fun _ => "{}" }

/-- A directory with one JPEG. -/
def oneJpegListing : String → List DirEntry :=
  fun _ => [{ path := "../images/a.jpg", stem := "a", extension := ".jpg" }]

/-- The readings the specification calls invalid for a policy with the given threshold:
NaN, either infinity, or a finite value at or above the threshold. -/
def isInvalid (threshold : ℚ) : Reading → Bool
  | Reading.nan => true
  | Reading.posInf => true
  | Reading.negInf => true
  | Reading.fin q => decide (threshold ≤ q)

/-! ## Properties of the numeric core -/

theorem castU16_eq_floor {x : ℚ} (h0 : 0 ≤ x) (h1 : x < 65536) :
    ((castU16 x : ℕ) : ℤ) = ⌊x⌋ := by
  have hf0 : 0 ≤ ⌊x⌋ := Int.floor_nonneg.2 h0
  have hf1 : ⌊x⌋ < 65536 := Int.floor_lt.2 (by exact_mod_cast h1)
  unfold castU16
  rw [if_pos h0, Int.emod_eq_of_lt hf0 hf1, Int.toNat_of_nonneg hf0]

theorem castU16_mono {x y : ℚ} (h0 : 0 ≤ x) (hxy : x ≤ y) (h1 : y < 65536) :
    castU16 x ≤ castU16 y := by
  have hx := castU16_eq_floor h0 (lt_of_le_of_lt hxy h1)
  have hy := castU16_eq_floor (le_trans h0 hxy) h1
  have hm : ⌊x⌋ ≤ ⌊y⌋ := Int.floor_mono hxy
  omega

/-- The normalised position of a clamped temperature lies in `[0, 1]`. -/
theorem unit_of_clamped {gmin gmax c : ℚ} (hr : gmin < gmax) (h1 : gmin ≤ c) (h2 : c ≤ gmax) :
    0 ≤ (c - gmin) / (gmax - gmin) ∧ (c - gmin) / (gmax - gmin) ≤ 1 := by
  have hpos : 0 < gmax - gmin := sub_pos.2 hr
  refine ⟨div_nonneg (sub_nonneg.2 h1) hpos.le, ?_⟩
  rw [div_le_one hpos]
  linarith

theorem clamp_bounds {gmin gmax : ℚ} (hr : gmin < gmax) (t : ℚ) :
    gmin ≤ max gmin (min gmax t) ∧ max gmin (min gmax t) ≤ gmax :=
  ⟨le_max_left _ _, max_le hr.le (min_le_left _ _)⟩

/-- The value handed to the `uint16_t` conversion by the range-normalized
encoder lies in `[1/2, 65535 + 1/2]`. -/
theorem scaled_bounds {gmin gmax : ℚ} (hr : gmin < gmax) (t : ℚ) :
    0 ≤ ((max gmin (min gmax t) - gmin) / (gmax - gmin)) * 65535 + 1 / 2 ∧
    ((max gmin (min gmax t) - gmin) / (gmax - gmin)) * 65535 + 1 / 2 < 65536 := by
  obtain ⟨c1, c2⟩ := clamp_bounds hr t
  obtain ⟨u0, u1⟩ := unit_of_clamped hr c1 c2
  constructor <;> nlinarith

theorem encodeRange_cast {gmin gmax : ℚ} (hr : gmin < gmax) (t : ℚ) :
    ((encodeRange gmin gmax t : ℕ) : ℤ) =
      ⌊((max gmin (min gmax t) - gmin) / (gmax - gmin)) * 65535 + 1 / 2⌋ := by
  obtain ⟨b0, b1⟩ := scaled_bounds hr t
  exact castU16_eq_floor b0 b1

theorem encodeRange_le {gmin gmax : ℚ} (hr : gmin < gmax) (t : ℚ) :
    encodeRange gmin gmax t ≤ 65535 := by
  have h := encodeRange_cast hr t
  obtain ⟨_, b1⟩ := scaled_bounds hr t
  have : ⌊((max gmin (min gmax t) - gmin) / (gmax - gmin)) * 65535 + 1 / 2⌋ < 65536 :=
    Int.floor_lt.2 (by exact_mod_cast b1)
  omega

theorem encodeRange_mono {gmin gmax : ℚ} (hr : gmin < gmax) {t1 t2 : ℚ} (h : t1 ≤ t2) :
    encodeRange gmin gmax t1 ≤ encodeRange gmin gmax t2 := by
  obtain ⟨a0, _⟩ := scaled_bounds hr t1
  obtain ⟨_, b1⟩ := scaled_bounds hr t2
  have hpos : 0 < gmax - gmin := sub_pos.2 hr
  have hc : max gmin (min gmax t1) ≤ max gmin (min gmax t2) :=
    max_le_max le_rfl (min_le_min le_rfl h)
  refine castU16_mono a0 ?_ b1
  have : (max gmin (min gmax t1) - gmin) / (gmax - gmin) ≤
      (max gmin (min gmax t2) - gmin) / (gmax - gmin) :=
    div_le_div_of_nonneg_right (by linarith) hpos.le
  linarith

theorem encodeRange_at_or_below_min {gmin gmax : ℚ} (hr : gmin < gmax) {t : ℚ} (h : t ≤ gmin) :
    encodeRange gmin gmax t = 0 := by
  have hc : max gmin (min gmax t) = gmin :=
    max_eq_left (le_trans (min_le_right _ _) h)
  have hz := encodeRange_cast hr t
  rw [hc, sub_self, zero_div, zero_mul, zero_add] at hz
  have : ⌊(1 / 2 : ℚ)⌋ = 0 := by
    rw [Int.floor_eq_iff]; norm_num
  omega

theorem encodeRange_at_or_above_max {gmin gmax : ℚ} (hr : gmin < gmax) {t : ℚ} (h : gmax ≤ t) :
    encodeRange gmin gmax t = 65535 := by
  have hpos : gmax - gmin ≠ 0 := (sub_pos.2 hr).ne'
  have hc : max gmin (min gmax t) = gmax := by
    rw [min_eq_left h, max_eq_right hr.le]
  have hz := encodeRange_cast hr t
  rw [hc, div_self hpos, one_mul] at hz
  have : ⌊(65535 + 1 / 2 : ℚ)⌋ = 65535 := by
    rw [Int.floor_eq_iff]; norm_num
  omega

/-- Round trip of the encoder proper (clamp, scale, convert) inside the range:
the decoded value is within one quantization step of the input. -/
theorem encodeRange_roundtrip {gmin gmax t : ℚ} (hr : gmin < gmax)
    (h1 : gmin ≤ t) (h2 : t ≤ gmax) :
    |decodeRange gmin gmax (encodeRange gmin gmax t) - t| ≤ (gmax - gmin) / 65535 := by
  have hpos : 0 < gmax - gmin := sub_pos.2 hr
  have hc : max gmin (min gmax t) = t := by
    rw [min_eq_right h2, max_eq_right h1]
  have hz := encodeRange_cast hr t
  rw [hc] at hz
  set u := (t - gmin) / (gmax - gmin) with hu
  have ht : t = u * (gmax - gmin) + gmin := by
    rw [hu, div_mul_cancel₀ _ hpos.ne']; ring
  have hfl : (⌊u * 65535 + 1 / 2⌋ : ℚ) ≤ u * 65535 + 1 / 2 := Int.floor_le _
  have hfu : u * 65535 + 1 / 2 < (⌊u * 65535 + 1 / 2⌋ : ℚ) + 1 := Int.lt_floor_add_one _
  have he : ((encodeRange gmin gmax t : ℕ) : ℚ) = (⌊u * 65535 + 1 / 2⌋ : ℚ) := by
    exact_mod_cast hz
  unfold decodeRange
  rw [he]
  set e : ℚ := (⌊u * 65535 + 1 / 2⌋ : ℚ) with hedef
  have key : e / 65535 * (gmax - gmin) + gmin - t = (e - u * 65535) * ((gmax - gmin) / 65535) := by
    rw [ht]; ring_nf
  rw [key, abs_le]
  have hstep : 0 < (gmax - gmin) / 65535 := by positivity
  constructor <;> nlinarith

/-! ### Fixed-offset encoder -/

theorem fixed_clamp_bounds (x : ℚ) :
    0 ≤ max 0 (min 65535 x) + 1 / 2 ∧ max 0 (min 65535 x) + 1 / 2 < 65536 := by
  have h0 : (0 : ℚ) ≤ max 0 (min 65535 x) := le_max_left _ _
  have h1 : max 0 (min 65535 x) ≤ (65535 : ℚ) := max_le (by norm_num) (min_le_left _ _)
  constructor <;> linarith

theorem encodeFixed_cast (t : ℚ) :
    ((encodeFixed t : ℕ) : ℤ) = ⌊max 0 (min 65535 (t * 100 + 10000)) + 1 / 2⌋ := by
  obtain ⟨b0, b1⟩ := fixed_clamp_bounds (t * 100 + 10000)
  exact castU16_eq_floor b0 b1

theorem encodeFixed_mono {t1 t2 : ℚ} (h : t1 ≤ t2) : encodeFixed t1 ≤ encodeFixed t2 := by
  obtain ⟨a0, _⟩ := fixed_clamp_bounds (t1 * 100 + 10000)
  obtain ⟨_, b1⟩ := fixed_clamp_bounds (t2 * 100 + 10000)
  refine castU16_mono a0 ?_ b1
  have : max 0 (min 65535 (t1 * 100 + 10000)) ≤ max 0 (min 65535 (t2 * 100 + 10000)) :=
    max_le_max le_rfl (min_le_min le_rfl (by linarith))
  linarith

theorem floor_half : ⌊(1 / 2 : ℚ)⌋ = 0 := by
  rw [Int.floor_eq_iff]; norm_num

theorem floor_top : ⌊(65535 + 1 / 2 : ℚ)⌋ = 65535 := by
  rw [Int.floor_eq_iff]; norm_num

/-- Below the representable range the fixed-offset code saturates at `0`. -/
theorem encodeFixed_low {t : ℚ} (h : t * 100 + 10000 ≤ 0) : encodeFixed t = 0 := by
  have hz := encodeFixed_cast t
  rw [max_eq_left (le_trans (min_le_right _ _) h), zero_add, floor_half] at hz
  exact_mod_cast hz

/-- Above the representable range the fixed-offset code saturates at `65535`. -/
theorem encodeFixed_high {t : ℚ} (h : 65535 ≤ t * 100 + 10000) : encodeFixed t = 65535 := by
  have hz := encodeFixed_cast t
  rw [min_eq_left h, max_eq_right (by norm_num : (0 : ℚ) ≤ 65535), floor_top] at hz
  exact_mod_cast hz

/-- Inside the representable range the fixed-offset code is `⌊100 t + 10000 + 1/2⌋`. -/
theorem encodeFixed_mid {t : ℚ} (h0 : 0 ≤ t * 100 + 10000) (h1 : t * 100 + 10000 ≤ 65535) :
    ((encodeFixed t : ℕ) : ℤ) = ⌊t * 100 + 10000 + 1 / 2⌋ := by
  have hz := encodeFixed_cast t
  rwa [min_eq_right h1, max_eq_right h0] at hz

theorem sanitizeTemp_invalid {r : Reading} (h : isInvalid 60000 r = true) :
    sanitizeTemp r = -27315 / 100 := by
  cases r with
  | nan => rfl
  | posInf => rfl
  | negInf => rfl
  | fin q =>
    have hq : (60000 : ℚ) ≤ q := by simpa [isInvalid] using h
    simp [sanitizeTemp, hq]

theorem filterInvalid_invalid (gmin : ℚ) {r : Reading}
    (h : isInvalid INVALID_THRESHOLD r = true) : filterInvalid gmin r = gmin := by
  cases r with
  | nan => rfl
  | posInf => rfl
  | negInf => rfl
  | fin q =>
    have hq : INVALID_THRESHOLD ≤ q := by simpa [isInvalid] using h
    simp [filterInvalid, hq]

theorem filterInvalid_valid (gmin : ℚ) {q : ℚ} (h : q < INVALID_THRESHOLD) :
    filterInvalid gmin (Reading.fin q) = q := by
  simp [filterInvalid, not_le.2 h]

theorem sanitizeTemp_valid {q : ℚ} (h : q < 60000) : sanitizeTemp (Reading.fin q) = q := by
  simp [sanitizeTemp, not_le.2 h]

theorem fixedCode_invalid {r : Reading} (h : isInvalid 60000 r = true) : fixedCode r = 0 := by
  unfold fixedCode
  rw [sanitizeTemp_invalid h]
  exact encodeFixed_low (by norm_num)

/-! ## Claims about the encoders -/

/-- C1, as stated, fails: with the range `[0, 70000]` the reading `66000` lies
inside the range, but `processImage` first replaces it by the minimum (it is at
or above `INVALID_THRESHOLD`), so the code is `0` and decodes to `0`, which is
`66000` away from the input, far more than one quantization step. -/
theorem range_roundtrip_fails_above_threshold :
    (0 : ℚ) < 70000 ∧ (0 : ℚ) ≤ 66000 ∧ (66000 : ℚ) ≤ 70000 ∧
    thermalCode 0 70000 (Reading.fin 66000) = 0 ∧
    ¬ (|decodeRange 0 70000 (thermalCode 0 70000 (Reading.fin 66000)) - 66000|
        ≤ (70000 - 0) / 65535) := by
  have hc : thermalCode 0 70000 (Reading.fin 66000) = 0 := by
    have hf : filterInvalid 0 (Reading.fin 66000) = 0 := by
      norm_num [filterInvalid, INVALID_THRESHOLD]
    unfold thermalCode
    rw [hf]
    exact encodeRange_at_or_below_min (by norm_num) le_rfl
  refine ⟨by norm_num, by norm_num, by norm_num, hc, ?_⟩
  rw [hc]
  norm_num [decodeRange]

/-- C1, amended: for every range `min < max` and every temperature `t` with
`min <= t <= max` that is below the invalid-reading threshold `65000`, the code
`processImage` stores for `t` decodes (by the summary's formula) to within
`(max - min) / 65535` of `t`. -/
theorem range_roundtrip (gmin gmax t : ℚ) (hr : gmin < gmax) (h1 : gmin ≤ t) (h2 : t ≤ gmax)
    (hv : t < INVALID_THRESHOLD) :
    |decodeRange gmin gmax (thermalCode gmin gmax (Reading.fin t)) - t|
      ≤ (gmax - gmin) / 65535 := by
  unfold thermalCode
  rw [filterInvalid_valid gmin hv]
  exact encodeRange_roundtrip hr h1 h2

/-- Witness for C1: the shipped range `12.80 / 138.70` and `t = 50`. -/
theorem range_roundtrip_witness :
    GLOBAL_TEMP_MIN < GLOBAL_TEMP_MAX ∧ GLOBAL_TEMP_MIN ≤ 50 ∧ (50 : ℚ) ≤ GLOBAL_TEMP_MAX ∧
    (50 : ℚ) < INVALID_THRESHOLD ∧
    |decodeRange GLOBAL_TEMP_MIN GLOBAL_TEMP_MAX
        (thermalCode GLOBAL_TEMP_MIN GLOBAL_TEMP_MAX (Reading.fin 50)) - 50|
      ≤ (GLOBAL_TEMP_MAX - GLOBAL_TEMP_MIN) / 65535 :=
  ⟨by norm_num [GLOBAL_TEMP_MIN, GLOBAL_TEMP_MAX], by norm_num [GLOBAL_TEMP_MIN],
   by norm_num [GLOBAL_TEMP_MAX], by norm_num [INVALID_THRESHOLD],
   range_roundtrip GLOBAL_TEMP_MIN GLOBAL_TEMP_MAX 50
     (by norm_num [GLOBAL_TEMP_MIN, GLOBAL_TEMP_MAX]) (by norm_num [GLOBAL_TEMP_MIN])
     (by norm_num [GLOBAL_TEMP_MAX]) (by norm_num [INVALID_THRESHOLD])⟩

/-- C2: for every temperature `t` with `-100 <= t <= 555`, the code
`ConvertToTiff` stores for `t` (sanitizeTemp, scale and offset, clamp, add 0.5,
truncate) decodes by `(e - 10000) / 100` to within `0.005` of `t`. -/
theorem fixed_roundtrip (t : ℚ) (h1 : -100 ≤ t) (h2 : t ≤ 555) :
    |decodeFixed (fixedCode (Reading.fin t)) - t| ≤ 5 / 1000 := by
  unfold fixedCode
  rw [sanitizeTemp_valid (by linarith)]
  have hz := encodeFixed_mid (t := t) (by linarith) (by linarith)
  have he : ((encodeFixed t : ℕ) : ℚ) = (⌊t * 100 + 10000 + 1 / 2⌋ : ℚ) := by
    exact_mod_cast hz
  have hfl : (⌊t * 100 + 10000 + 1 / 2⌋ : ℚ) ≤ t * 100 + 10000 + 1 / 2 := Int.floor_le _
  have hfu : t * 100 + 10000 + 1 / 2 < (⌊t * 100 + 10000 + 1 / 2⌋ : ℚ) + 1 :=
    Int.lt_floor_add_one _
  unfold decodeFixed
  rw [he, abs_le]
  constructor <;> linarith

/-- Witness for C2: `t = 23.45`. -/
theorem fixed_roundtrip_witness :
    (-100 : ℚ) ≤ 2345 / 100 ∧ (2345 / 100 : ℚ) ≤ 555 ∧
    |decodeFixed (fixedCode (Reading.fin (2345 / 100))) - 2345 / 100| ≤ 5 / 1000 :=
  ⟨by norm_num, by norm_num, fixed_roundtrip (2345 / 100) (by norm_num) (by norm_num)⟩

/-- C3, as stated, fails: with the range `[0, 70000]` the reading `t = max = 70000`
is at or above `INVALID_THRESHOLD`, so `processImage` replaces it by the minimum
and stores `0`, not `65535`. -/
theorem range_max_endpoint_fails_above_threshold :
    (0 : ℚ) < 70000 ∧ thermalCode 0 70000 (Reading.fin 70000) = 0 ∧
    thermalCode 0 70000 (Reading.fin 70000) ≠ 65535 := by
  have hc : thermalCode 0 70000 (Reading.fin 70000) = 0 := by
    have hf : filterInvalid 0 (Reading.fin 70000) = 0 := by
      norm_num [filterInvalid, INVALID_THRESHOLD]
    unfold thermalCode
    rw [hf]
    exact encodeRange_at_or_below_min (by norm_num) le_rfl
  refine ⟨by norm_num, hc, ?_⟩
  rw [hc]
  decide

/-- C3, amended: for every range `min < max`, `processImage` stores `0` for
`t = min` and for every `t <= min`, and stores `65535` for every `t` with
`max <= t < 65000`; in particular it stores `65535` for `t = max` whenever
`max < 65000`, as with the shipped range `12.80 / 138.70`. -/
theorem range_endpoints (gmin gmax : ℚ) (hr : gmin < gmax) :
    thermalCode gmin gmax (Reading.fin gmin) = 0 ∧
    (gmax < INVALID_THRESHOLD → thermalCode gmin gmax (Reading.fin gmax) = 65535) ∧
    (∀ t : ℚ, t ≤ gmin → thermalCode gmin gmax (Reading.fin t) = 0) ∧
    (∀ t : ℚ, gmax ≤ t → t < INVALID_THRESHOLD →
      thermalCode gmin gmax (Reading.fin t) = 65535) := by
  have low : ∀ t : ℚ, t ≤ gmin → thermalCode gmin gmax (Reading.fin t) = 0 := by
    intro t ht
    unfold thermalCode
    refine encodeRange_at_or_below_min hr ?_
    simp only [filterInvalid]
    split_ifs
    · exact le_rfl
    · exact ht
  have high : ∀ t : ℚ, gmax ≤ t → t < INVALID_THRESHOLD →
      thermalCode gmin gmax (Reading.fin t) = 65535 := by
    intro t ht hv
    unfold thermalCode
    rw [filterInvalid_valid gmin hv]
    exact encodeRange_at_or_above_max hr ht
  exact ⟨low gmin le_rfl, fun hv => high gmax le_rfl hv, low, high⟩

/-- Witness for C3: the shipped range, whose endpoints encode to `0` and `65535`. -/
theorem range_endpoints_witness :
    GLOBAL_TEMP_MIN < GLOBAL_TEMP_MAX ∧
    thermalCode GLOBAL_TEMP_MIN GLOBAL_TEMP_MAX (Reading.fin GLOBAL_TEMP_MIN) = 0 ∧
    thermalCode GLOBAL_TEMP_MIN GLOBAL_TEMP_MAX (Reading.fin GLOBAL_TEMP_MAX) = 65535 :=
  have hr : GLOBAL_TEMP_MIN < GLOBAL_TEMP_MAX := by norm_num [GLOBAL_TEMP_MIN, GLOBAL_TEMP_MAX]
  ⟨hr, (range_endpoints GLOBAL_TEMP_MIN GLOBAL_TEMP_MAX hr).1,
   (range_endpoints GLOBAL_TEMP_MIN GLOBAL_TEMP_MAX hr).2.1
     (by norm_num [GLOBAL_TEMP_MAX, INVALID_THRESHOLD])⟩

/-- C4: both encoders are non-decreasing on sanitized input: for finite
`t1 <= t2` the range-normalized code (with `min < max`) of `t1` is at most that
of `t2`, and the fixed-offset code of `t1` is at most that of `t2`. -/
theorem encoders_monotone (gmin gmax t1 t2 : ℚ) (hr : gmin < gmax) (h : t1 ≤ t2) :
    encodeRange gmin gmax t1 ≤ encodeRange gmin gmax t2 ∧ encodeFixed t1 ≤ encodeFixed t2 :=
  ⟨encodeRange_mono hr h, encodeFixed_mono h⟩

/-- Witness for C4: the shipped range with `20 <= 50`. -/
theorem encoders_monotone_witness :
    GLOBAL_TEMP_MIN < GLOBAL_TEMP_MAX ∧ (20 : ℚ) ≤ 50 ∧
    encodeRange GLOBAL_TEMP_MIN GLOBAL_TEMP_MAX 20 ≤ encodeRange GLOBAL_TEMP_MIN GLOBAL_TEMP_MAX 50 ∧
    encodeFixed 20 ≤ encodeFixed 50 :=
  ⟨by norm_num [GLOBAL_TEMP_MIN, GLOBAL_TEMP_MAX], by norm_num,
   encoders_monotone GLOBAL_TEMP_MIN GLOBAL_TEMP_MAX 20 50
     (by norm_num [GLOBAL_TEMP_MIN, GLOBAL_TEMP_MAX]) (by norm_num)⟩

/-- C5: a reading that is NaN, an infinity or at or above the policy's
threshold gets the same band-4 code as the policy's fallback value (the
configured minimum, respectively `-273.15`); every other finite reading reaches
the encoder unchanged; with the range `[12.80, 138.70]` a NaN cell and a
`70000.0` cell both encode to `0`. -/
theorem sanitization (gmin gmax : ℚ) (r : Reading) :
    (isInvalid INVALID_THRESHOLD r = true →
      thermalCode gmin gmax r = thermalCode gmin gmax (Reading.fin gmin)) ∧
    (isInvalid 60000 r = true → fixedCode r = fixedCode (Reading.fin (-27315 / 100))) ∧
    (∀ q : ℚ, isInvalid INVALID_THRESHOLD (Reading.fin q) = false →
      filterInvalid gmin (Reading.fin q) = q ∧
      thermalCode gmin gmax (Reading.fin q) = encodeRange gmin gmax q) ∧
    (∀ q : ℚ, isInvalid 60000 (Reading.fin q) = false →
      sanitizeTemp (Reading.fin q) = q ∧ fixedCode (Reading.fin q) = encodeFixed q) ∧
    thermalCode GLOBAL_TEMP_MIN GLOBAL_TEMP_MAX Reading.nan = 0 ∧
    thermalCode GLOBAL_TEMP_MIN GLOBAL_TEMP_MAX (Reading.fin 70000) = 0 ∧
    fixedCode Reading.nan = fixedCode (Reading.fin 70000) := by
  have hship : GLOBAL_TEMP_MIN < GLOBAL_TEMP_MAX := by norm_num [GLOBAL_TEMP_MIN, GLOBAL_TEMP_MAX]
  refine ⟨?_, ?_, ?_, ?_, ?_, ?_, ?_⟩
  · intro h
    unfold thermalCode
    rw [filterInvalid_invalid gmin h]
    congr 1
    simp only [filterInvalid]
    split_ifs <;> rfl
  · intro h
    unfold fixedCode
    rw [sanitizeTemp_invalid h, sanitizeTemp_valid (by norm_num)]
  · intro q hq
    have hlt : q < INVALID_THRESHOLD := by simpa [isInvalid] using hq
    have hf := filterInvalid_valid gmin hlt
    exact ⟨hf, by unfold thermalCode; rw [hf]⟩
  · intro q hq
    have hlt : q < 60000 := by simpa [isInvalid] using hq
    have hf := sanitizeTemp_valid hlt
    exact ⟨hf, by unfold fixedCode; rw [hf]⟩
  · exact encodeRange_at_or_below_min hship le_rfl
  · unfold thermalCode
    rw [filterInvalid_invalid _ (by norm_num [isInvalid, INVALID_THRESHOLD])]
    exact encodeRange_at_or_below_min hship le_rfl
  · rw [fixedCode_invalid (r := Reading.nan) rfl,
      fixedCode_invalid (r := Reading.fin 70000) (by norm_num [isInvalid])]

/-- With the arithmetic read as exact, clamping first and then adding 0.5 and
truncating gives the same code as rounding half away from zero and then
clamping, for every temperature; `23.45` gives `12345` and `-5` gives `9500`. -/
theorem encodeFixed_exact_refines_spec :
    (∀ t : ℚ, encodeFixed t = specEncodeFixed t) ∧
    encodeFixed (2345 / 100) = 12345 ∧ encodeFixed (-5) = 9500 := by
  have main : ∀ t : ℚ, encodeFixed t = specEncodeFixed t := by
    intro t
    unfold specEncodeFixed roundHalfAway
    rcases lt_or_le (t * 100 + 10000) 0 with hneg | hnn
    · rw [encodeFixed_low hneg.le, if_neg (not_le.2 hneg)]
      have hc : ⌈t * 100 + 10000 - 1 / 2⌉ ≤ 0 := by
        rw [Int.ceil_le]; push_cast; linarith
      rw [min_eq_right (by omega), max_eq_left hc]
      rfl
    · rw [if_pos hnn]
      rcases le_or_lt (t * 100 + 10000) 65535 with hle | hgt
      · have hz := encodeFixed_mid hnn hle
        have hf0 : 0 ≤ ⌊t * 100 + 10000 + 1 / 2⌋ := Int.floor_nonneg.2 (by linarith)
        have hf1 : ⌊t * 100 + 10000 + 1 / 2⌋ < 65536 :=
          Int.floor_lt.2 (by push_cast; linarith)
        rw [min_eq_right (by omega), max_eq_right hf0]
        omega
      · rw [encodeFixed_high hgt.le]
        have hf : 65535 ≤ ⌊t * 100 + 10000 + 1 / 2⌋ :=
          Int.le_floor.2 (by push_cast; linarith)
        rw [min_eq_left hf]
        rfl
  have floor_a : ⌊(2345 / 100 * 100 + 10000 + 1 / 2 : ℚ)⌋ = 12345 := by
    rw [Int.floor_eq_iff]; norm_num
  have floor_b : ⌊((-5) * 100 + 10000 + 1 / 2 : ℚ)⌋ = 9500 := by
    rw [Int.floor_eq_iff]; norm_num
  refine ⟨main, ?_, ?_⟩
  · have hz := encodeFixed_mid (t := 2345 / 100) (by norm_num) (by norm_num)
    rw [floor_a] at hz
    exact_mod_cast hz
  · have hz := encodeFixed_mid (t := -5) (by norm_num) (by norm_num)
    rw [floor_b] at hz
    exact_mod_cast hz

/-- C10, as stated, fails: the valid reading `-100` (inside `[-100, 555]`) gets
band-4 code `0`, the same code as a NaN reading, whose sentinel `-273.15`
saturates at `0` in the clamp. -/
theorem error_code_collides_at_minus_100 :
    isInvalid 60000 Reading.nan = true ∧ (-100 : ℚ) ≤ -100 ∧ (-100 : ℚ) ≤ 555 ∧
    fixedCode Reading.nan = 0 ∧ fixedCode (Reading.fin (-100)) = 0 ∧
    fixedCode Reading.nan = fixedCode (Reading.fin (-100)) := by
  have h1 : fixedCode Reading.nan = 0 := fixedCode_invalid rfl
  have h2 : fixedCode (Reading.fin (-100)) = 0 := by
    unfold fixedCode
    rw [sanitizeTemp_valid (by norm_num)]
    exact encodeFixed_low (by norm_num)
  exact ⟨rfl, le_rfl, by norm_num, h1, h2, h1.trans h2.symm⟩

/-- C10, amended: the band-4 code written for an invalid reading (NaN, infinite
or `>= 60000.0`) is `0` and differs from the code written for every valid
reading `t` with `-99.995 <= t <= 555`, whose code is at least `1`. -/
theorem error_code_distinct (r : Reading) (t : ℚ) (hr : isInvalid 60000 r = true)
    (h1 : -99995 / 1000 ≤ t) (h2 : t ≤ 555) :
    fixedCode r = 0 ∧ 1 ≤ fixedCode (Reading.fin t) ∧ fixedCode r ≠ fixedCode (Reading.fin t) := by
  have hz : fixedCode r = 0 := fixedCode_invalid hr
  have hpos : 1 ≤ fixedCode (Reading.fin t) := by
    unfold fixedCode
    rw [sanitizeTemp_valid (by linarith)]
    have hm := encodeFixed_mid (t := t) (by linarith) (by linarith)
    have hf : 1 ≤ ⌊t * 100 + 10000 + 1 / 2⌋ := Int.le_floor.2 (by push_cast; linarith)
    omega
  exact ⟨hz, hpos, by omega⟩

/-- Witness for C10: a NaN reading against the valid reading `20`. -/
theorem error_code_distinct_witness :
    isInvalid 60000 Reading.nan = true ∧ (-99995 / 1000 : ℚ) ≤ 20 ∧ (20 : ℚ) ≤ 555 ∧
    fixedCode Reading.nan ≠ fixedCode (Reading.fin 20) :=
  ⟨rfl, by norm_num, by norm_num,
   (error_code_distinct Reading.nan 20 rfl (by norm_num) (by norm_num)).2.2⟩

/-! ## Properties of the image operations -/

theorem getD_set_eq (l : List ℕ) (i j a d : ℕ) :
    (l.set i a).getD j d = if i = j ∧ i < l.length then a else l.getD j d := by
  simp only [List.getD_eq_getElem?_getD, List.getElem?_set]
  by_cases h : i = j
  · subst h
    by_cases h2 : i < l.length
    · simp [h2]
    · have hn : l[i]? = none := List.getElem?_eq_none (not_lt.1 h2)
      simp [h2, hn]
  · simp [h]

theorem getD_map_range (N k d : ℕ) (f : ℕ → ℕ) :
    ((List.range N).map f).getD k d = if k < N then f k else d := by
  simp only [List.getD_eq_getElem?_getD, List.getElem?_map]
  by_cases h : k < N
  · simp [List.getElem?_range h, h]
  · have hn : (List.range N)[k]? = none :=
      List.getElem?_eq_none (by simpa using not_lt.1 h)
    simp [hn, h]

theorem setAt_rows (m : Mat) (y x v : ℕ) : (m.setAt y x v).rows = m.rows := rfl

theorem setAt_cols (m : Mat) (y x v : ℕ) : (m.setAt y x v).cols = m.cols := rfl

theorem setAt_channels (m : Mat) (y x v : ℕ) : (m.setAt y x v).channels = m.channels := rfl

theorem setAt_data (m : Mat) (y x v : ℕ) :
    (m.setAt y x v).data = m.data.set (y * m.cols + x) v := rfl

/-- The inner pixel loop after `n` columns of row `y`: the shape is unchanged and
exactly the cells `y * cols + x`, `x < n`, hold the new codes. -/
theorem row_loop_spec (g : ℕ → ℕ) (y : ℕ) (b : Mat) (n : ℕ) :
    ((List.range n).foldl (fun b x => b.setAt y x (g x)) b).rows = b.rows ∧
    ((List.range n).foldl (fun b x => b.setAt y x (g x)) b).cols = b.cols ∧
    ((List.range n).foldl (fun b x => b.setAt y x (g x)) b).channels = b.channels ∧
    ((List.range n).foldl (fun b x => b.setAt y x (g x)) b).data.length = b.data.length ∧
    ∀ k, ((List.range n).foldl (fun b x => b.setAt y x (g x)) b).data.getD k 0 =
      if y * b.cols ≤ k ∧ k < y * b.cols + n ∧ k < b.data.length
      then g (k - y * b.cols) else b.data.getD k 0 := by
  induction n with
  | zero =>
    refine ⟨rfl, rfl, rfl, rfl, fun k => ?_⟩
    have : ¬ (y * b.cols ≤ k ∧ k < y * b.cols + 0 ∧ k < b.data.length) := by omega
    rw [if_neg this]
    rfl
  | succ n ih =>
    obtain ⟨h1, h2, h3, h4, h5⟩ := ih
    rw [List.range_succ, List.foldl_append]
    simp only [List.foldl_cons, List.foldl_nil]
    refine ⟨h1, h2, h3, ?_, fun k => ?_⟩
    · rw [setAt_data, List.length_set]
      exact h4
    · rw [setAt_data, getD_set_eq, h5 k, h2, h4]
      by_cases hk : y * b.cols + n = k
      · subst hk
        by_cases hl : y * b.cols + n < b.data.length
        · have c1 : y * b.cols + n = y * b.cols + n ∧ y * b.cols + n < b.data.length :=
            ⟨rfl, hl⟩
          have c2 : y * b.cols ≤ y * b.cols + n ∧ y * b.cols + n < y * b.cols + (n + 1) ∧
              y * b.cols + n < b.data.length := ⟨by omega, by omega, hl⟩
          rw [if_pos c1, if_pos c2]
          congr 1
          omega
        · have c1 : ¬ (y * b.cols + n = y * b.cols + n ∧ y * b.cols + n < b.data.length) :=
            fun h => hl h.2
          have c2 : ¬ (y * b.cols ≤ y * b.cols + n ∧ y * b.cols + n < y * b.cols + n ∧
              y * b.cols + n < b.data.length) := fun h => hl h.2.2
          have c3 : ¬ (y * b.cols ≤ y * b.cols + n ∧ y * b.cols + n < y * b.cols + (n + 1) ∧
              y * b.cols + n < b.data.length) := fun h => hl h.2.2
          rw [if_neg c1, if_neg c2, if_neg c3]
      · have c1 : ¬ (y * b.cols + n = k ∧ y * b.cols + n < b.data.length) := fun h => hk h.1
        rw [if_neg c1]
        by_cases hc : y * b.cols ≤ k ∧ k < y * b.cols + n ∧ k < b.data.length
        · have c2 : y * b.cols ≤ k ∧ k < y * b.cols + (n + 1) ∧ k < b.data.length :=
            ⟨hc.1, by omega, hc.2.2⟩
          rw [if_pos hc, if_pos c2]
        · have c2 : ¬ (y * b.cols ≤ k ∧ k < y * b.cols + (n + 1) ∧ k < b.data.length) := by
            intro h
            exact hc ⟨h.1, by omega, h.2.2⟩
          rw [if_neg hc, if_neg c2]

/-- The two nested pixel loops after `m` rows of width `w = cols`: the shape is
unchanged and exactly the first `m * w` cells hold the new codes. -/
theorem band_loop_spec (g : ℕ → ℕ → ℕ) (w : ℕ) (b : Mat) (hw : b.cols = w) (m : ℕ) :
    ((List.range m).foldl (fun b y =>
      (List.range w).foldl (fun b x => b.setAt y x (g y x)) b) b).rows = b.rows ∧
    ((List.range m).foldl (fun b y =>
      (List.range w).foldl (fun b x => b.setAt y x (g y x)) b) b).cols = b.cols ∧
    ((List.range m).foldl (fun b y =>
      (List.range w).foldl (fun b x => b.setAt y x (g y x)) b) b).channels = b.channels ∧
    ((List.range m).foldl (fun b y =>
      (List.range w).foldl (fun b x => b.setAt y x (g y x)) b) b).data.length = b.data.length ∧
    ∀ k, ((List.range m).foldl (fun b y =>
      (List.range w).foldl (fun b x => b.setAt y x (g y x)) b) b).data.getD k 0 =
      if k < m * w ∧ k < b.data.length then g (k / w) (k % w) else b.data.getD k 0 := by
  induction m with
  | zero =>
    refine ⟨rfl, rfl, rfl, rfl, fun k => ?_⟩
    have : ¬ (k < 0 * w ∧ k < b.data.length) := by omega
    rw [if_neg this]
    rfl
  | succ m ih =>
    obtain ⟨h1, h2, h3, h4, h5⟩ := ih
    rw [List.range_succ, List.foldl_append]
    simp only [List.foldl_cons, List.foldl_nil]
    obtain ⟨r1, r2, r3, r4, r5⟩ := row_loop_spec (g m) m
      ((List.range m).foldl (fun b y =>
        (List.range w).foldl (fun b x => b.setAt y x (g y x)) b) b) w
    refine ⟨r1.trans h1, r2.trans h2, r3.trans h3, r4.trans h4, fun k => ?_⟩
    rw [r5 k, h2, h4, h5 k, hw]
    have hsucc : (m + 1) * w = m * w + w := by ring
    by_cases hin : m * w ≤ k ∧ k < m * w + w ∧ k < b.data.length
    · have c2 : k < (m + 1) * w ∧ k < b.data.length := ⟨by omega, hin.2.2⟩
      rw [if_pos hin, if_pos c2]
      have hdiv : k / w = m := Nat.div_eq_of_lt_le hin.1 (by omega)
      have hmod : k % w = k - m * w := by
        have := Nat.div_add_mod k w
        rw [hdiv, Nat.mul_comm] at this
        omega
      rw [hdiv, hmod]
    · rw [if_neg hin]
      by_cases hc : k < m * w ∧ k < b.data.length
      · have c2 : k < (m + 1) * w ∧ k < b.data.length := ⟨by omega, hc.2⟩
        rw [if_pos hc, if_pos c2]
      · have c2 : ¬ (k < (m + 1) * w ∧ k < b.data.length) := by
          intro h
          apply hc
          refine ⟨?_, h.2⟩
          by_contra hge
          exact hin ⟨by omega, by omega, h.2⟩
        rw [if_neg hc, if_neg c2]

/-- The thermal band `processImage` builds for a `w x h` grid: a single-channel
`h x w` matrix whose cell `(y, x)` holds the code of `tempArray[y][x]`. -/
theorem fillBand_spec (gmin gmax : ℚ) (tempArray : List (List Reading)) (w h : ℕ) :
    (fillBand gmin gmax tempArray w h (Mat.create h w)).data.length = h * w ∧
    ∀ y x, y < h → x < w →
      (fillBand gmin gmax tempArray w h (Mat.create h w)).data.getD (y * w + x) 0 =
        thermalCode gmin gmax (tempAt tempArray y x) := by
  obtain ⟨_, _, _, h4, h5⟩ := band_loop_spec
    (fun y x => thermalCode gmin gmax (tempAt tempArray y x)) w (Mat.create h w) rfl h
  have hlen : (Mat.create h w).data.length = h * w := by
    simp [Mat.create]
  refine ⟨h4.trans hlen, fun y x hy hx => ?_⟩
  have hk : y * w + x < h * w := by
    have : (y + 1) * w ≤ h * w := Nat.mul_le_mul_right w hy
    have : (y + 1) * w = y * w + w := by ring
    omega
  have hspec := h5 (y * w + x)
  rw [hlen, if_pos ⟨hk, hk⟩] at hspec
  have hdiv : (y * w + x) / w = y := Nat.div_eq_of_lt_le (by omega) (by
    have : (y + 1) * w = y * w + w := by ring
    omega)
  have hmod : (y * w + x) % w = x := by
    rw [Nat.add_comm, Nat.add_mul_mod_self_right, Nat.mod_eq_of_lt hx]
  rw [hdiv, hmod] at hspec
  exact hspec

/-- The plane `c` that `cv::split` extracts from a three-channel image. -/
theorem split_three (img : Mat) (hch : img.channels = 3) :
    split img =
      [ { rows := img.rows, cols := img.cols, channels := 1,
          data := (List.range (img.rows * img.cols)).map fun i => img.data.getD (i * 3 + 0) 0 },
        { rows := img.rows, cols := img.cols, channels := 1,
          data := (List.range (img.rows * img.cols)).map fun i => img.data.getD (i * 3 + 1) 0 },
        { rows := img.rows, cols := img.cols, channels := 1,
          data := (List.range (img.rows * img.cols)).map fun i => img.data.getD (i * 3 + 2) 0 } ] := by
  have h3 : List.range 3 = [0, 1, 2] := rfl
  unfold split
  rw [hch, h3]
  rfl

theorem getD_map_saturate (l : List ℕ) (k alpha : ℕ) :
    (l.map fun v => saturateU16 (v * alpha)).getD k 0 = saturateU16 (l.getD k 0 * alpha) := by
  have h := List.getD_map l 0 (n := k) (fun v => saturateU16 (v * alpha))
  have h0 : saturateU16 (0 * alpha) = 0 := by simp [saturateU16]
  rw [h0] at h
  exact h

/-- The composite of a three-channel image and a thermal band, sample by sample. -/
theorem composeChannels_spec (img band : Mat) (hch : img.channels = 3) :
    (composeChannels img band).rows = img.rows ∧
    (composeChannels img band).cols = img.cols ∧
    (composeChannels img band).channels = 4 ∧
    (composeChannels img band).data.length = img.rows * img.cols * 4 ∧
    ∀ i, i < img.rows * img.cols →
      (∀ c, c < 3 → (composeChannels img band).data.getD (i * 4 + c) 0 =
        saturateU16 (img.data.getD (i * 3 + c) 0 * 257)) ∧
      (composeChannels img band).data.getD (i * 4 + 3) 0 = band.data.getD i 0 := by
  have h3 : List.range 3 = [0, 1, 2] := rfl
  unfold composeChannels
  simp only [split_three img hch, h3, List.map_cons, List.map_nil, List.getD_cons_zero,
    List.getD_cons_succ, List.cons_append, List.nil_append, merge, List.length_cons,
    List.length_nil, convertTo16U]
  refine ⟨trivial, trivial, trivial, by simp, fun i hi => ⟨fun c hc => ?_, ?_⟩⟩
  · have hk : i * 4 + c < img.rows * img.cols * 4 := by omega
    have hdiv : (i * 4 + c) / 4 = i := by omega
    have hmod : (i * 4 + c) % 4 = c := by omega
    rw [getD_map_range, if_pos hk, hdiv, hmod]
    interval_cases c
    · simp only [List.getD_cons_zero]
      rw [getD_map_saturate, getD_map_range, if_pos hi]
    · simp only [List.getD_cons_zero, List.getD_cons_succ]
      rw [getD_map_saturate, getD_map_range, if_pos hi]
    · simp only [List.getD_cons_zero, List.getD_cons_succ]
      rw [getD_map_saturate, getD_map_range, if_pos hi]
  · have hk : i * 4 + 3 < img.rows * img.cols * 4 := by omega
    have hdiv : (i * 4 + 3) / 4 = i := by omega
    have hmod : (i * 4 + 3) % 4 = 3 := by omega
    rw [getD_map_range, if_pos hk, hdiv, hmod]
    simp only [List.getD_cons_zero, List.getD_cons_succ]

/-- What `processImage` does once the image is loaded at the target size, the
decode succeeds and the range is valid: it builds the composite and hands it to
`imwrite`, whose answer is the returned flag. -/
theorem processImage_success_path (env : Env) (gmin gmax : ℚ) (inputPath outputPath : String)
    (w h : ℕ) (hr : gmin < gmax) (hne : 0 < h * w)
    (hrows : (env.imread inputPath).rows = h) (hcols : (env.imread inputPath).cols = w)
    (hret : (env.GetIrPhotoTempInfo inputPath w h).ret = 0) :
    processImage env gmin gmax inputPath outputPath w h =
      (env.imwrite outputPath (composeChannels (env.imread inputPath)
          (fillBand gmin gmax (env.GetIrPhotoTempInfo inputPath w h).tempArray w h
            (Mat.create h w))),
        [Event.imread inputPath, Event.decode inputPath,
         Event.imwrite outputPath (composeChannels (env.imread inputPath)
          (fillBand gmin gmax (env.GetIrPhotoTempInfo inputPath w h).tempArray w h
            (Mat.create h w)))]) := by
  have hempty : (env.imread inputPath).empty = false := by
    simp only [Mat.empty, hrows, hcols, decide_eq_false_iff_not]
    omega
  have hsame : ¬ ((env.imread inputPath).cols ≠ w ∨ (env.imread inputPath).rows ≠ h) := by
    rw [hrows, hcols]; simp
  have hrange : ¬ (gmax - gmin ≤ 0) := not_le.2 (sub_pos.2 hr)
  unfold processImage
  simp only [hempty, hsame, hret, hrange, if_false, if_true, ne_eq, not_true_eq_false,
    Bool.false_eq_true, List.cons_append, List.nil_append]
  split_ifs with hw
  · rw [hw]
  · rw [Bool.not_eq_false] at hw
    rw [hw]

theorem saturate_of_byte {v : ℕ} (hv : v ≤ 255) : saturateU16 (v * 257) = v * 257 := by
  unfold saturateU16
  exact min_eq_left (by omega)

theorem shipped_code_of_50 :
    thermalCode GLOBAL_TEMP_MIN GLOBAL_TEMP_MAX (Reading.fin 50) = 19364 := by
  have hship : GLOBAL_TEMP_MIN < GLOBAL_TEMP_MAX := by norm_num [GLOBAL_TEMP_MIN, GLOBAL_TEMP_MAX]
  unfold thermalCode
  rw [filterInvalid_valid _ (by norm_num [INVALID_THRESHOLD])]
  have hz := encodeRange_cast hship 50
  have hmin : min GLOBAL_TEMP_MAX 50 = 50 := min_eq_right (by norm_num [GLOBAL_TEMP_MAX])
  have hmax : max GLOBAL_TEMP_MIN 50 = 50 := max_eq_right (by norm_num [GLOBAL_TEMP_MIN])
  rw [hmin, hmax] at hz
  have hf : ⌊((50 - GLOBAL_TEMP_MIN) / (GLOBAL_TEMP_MAX - GLOBAL_TEMP_MIN)) * 65535 + 1 / 2⌋
      = 19364 := by
    rw [Int.floor_eq_iff]
    norm_num [GLOBAL_TEMP_MIN, GLOBAL_TEMP_MAX]
  rw [hf] at hz
  exact_mod_cast hz

/-- C8: for an 8-bit three-channel source already at `w x h`, a `w x h` grid, a
successful decode and a valid range `min < max`, `processImage` hands `imwrite`
a composite of exactly 4 bands of size `w x h` in which, at every pixel, bands
0-2 are the source's channel values times `257` and band 3 is the
range-normalized code of the grid cell at the same pixel. -/
theorem composite_contents (env : Env) (gmin gmax : ℚ) (inputPath outputPath : String)
    (w h : ℕ) (hr : gmin < gmax) (hne : 0 < h * w)
    (hrows : (env.imread inputPath).rows = h) (hcols : (env.imread inputPath).cols = w)
    (hch : (env.imread inputPath).channels = 3)
    (hlen : (env.imread inputPath).data.length = h * w * 3)
    (h8 : ∀ v ∈ (env.imread inputPath).data, v ≤ 255)
    (hret : (env.GetIrPhotoTempInfo inputPath w h).ret = 0)
    (hgrows : (env.GetIrPhotoTempInfo inputPath w h).tempArray.length = h)
    (hgcols : ∀ row ∈ (env.GetIrPhotoTempInfo inputPath w h).tempArray, row.length = w) :
    ∃ out : Mat,
      (processImage env gmin gmax inputPath outputPath w h).2 =
        [Event.imread inputPath, Event.decode inputPath, Event.imwrite outputPath out] ∧
      (processImage env gmin gmax inputPath outputPath w h).1 = env.imwrite outputPath out ∧
      out.rows = h ∧ out.cols = w ∧ out.channels = 4 ∧ out.data.length = h * w * 4 ∧
      ∀ y x, y < h → x < w →
        (∀ c, c < 3 → ∃ v, (env.imread inputPath).data[(y * w + x) * 3 + c]? = some v ∧
          out.sample y x c = v * 257 ∧ out.sample y x c ≤ 65535) ∧
        ∃ row t, (env.GetIrPhotoTempInfo inputPath w h).tempArray[y]? = some row ∧
          row[x]? = some t ∧ out.sample y x 3 = thermalCode gmin gmax t := by
  obtain ⟨c1, c2, c3, c4, c5⟩ := composeChannels_spec (env.imread inputPath)
    (fillBand gmin gmax (env.GetIrPhotoTempInfo inputPath w h).tempArray w h (Mat.create h w)) hch
  obtain ⟨_, b2⟩ := fillBand_spec gmin gmax (env.GetIrPhotoTempInfo inputPath w h).tempArray w h
  rw [hrows, hcols] at c4 c5
  refine ⟨_, ?_, ?_, c1.trans hrows, c2.trans hcols, c3, c4, fun y x hy hx => ?_⟩
  · rw [processImage_success_path env gmin gmax inputPath outputPath w h hr hne hrows hcols hret]
  · rw [processImage_success_path env gmin gmax inputPath outputPath w h hr hne hrows hcols hret]
  · have hk : y * w + x < h * w := by
      have h1 : (y + 1) * w ≤ h * w := Nat.mul_le_mul_right w hy
      have h2 : (y + 1) * w = y * w + w := by ring
      omega
    obtain ⟨d1, d2⟩ := c5 (y * w + x) hk
    constructor
    · intro c hc
      have hin : (y * w + x) * 3 + c < (env.imread inputPath).data.length := by omega
      refine ⟨(env.imread inputPath).data[(y * w + x) * 3 + c], List.getElem?_eq_getElem hin,
        ?_⟩
      have hv : (env.imread inputPath).data[(y * w + x) * 3 + c] ≤ 255 :=
        h8 _ (List.getElem_mem hin)
      have hs : Mat.sample (composeChannels (env.imread inputPath)
          (fillBand gmin gmax (env.GetIrPhotoTempInfo inputPath w h).tempArray w h
            (Mat.create h w))) y x c =
          (env.imread inputPath).data[(y * w + x) * 3 + c] * 257 := by
        unfold Mat.sample
        rw [c2, c3, hcols, d1 c hc, List.getD_eq_getElem _ _ hin, saturate_of_byte hv]
      rw [hs]
      exact ⟨rfl, by omega⟩
    · have hyl : y < (env.GetIrPhotoTempInfo inputPath w h).tempArray.length := by omega
      have hxl : x < ((env.GetIrPhotoTempInfo inputPath w h).tempArray[y]).length := by
        rw [hgcols _ (List.getElem_mem hyl)]; exact hx
      refine ⟨(env.GetIrPhotoTempInfo inputPath w h).tempArray[y],
        ((env.GetIrPhotoTempInfo inputPath w h).tempArray[y])[x],
        List.getElem?_eq_getElem hyl, List.getElem?_eq_getElem hxl, ?_⟩
      unfold Mat.sample
      rw [c2, c3, hcols, d2, b2 y x hy hx]
      unfold tempAt
      rw [List.getD_eq_getElem _ _ hyl, List.getD_eq_getElem _ _ hxl]

/-- Witness for C8: the all-zero `640 x 512` image with the grid uniformly `50.0`
and the shipped range gives `(0, 0, 0, 19364)` at every pixel. -/
theorem composite_contents_witness :
    GLOBAL_TEMP_MIN < GLOBAL_TEMP_MAX ∧ 0 < 512 * 640 ∧
    (scenarioEnv.imread "a.jpg").rows = 512 ∧ (scenarioEnv.imread "a.jpg").cols = 640 ∧
    (scenarioEnv.imread "a.jpg").channels = 3 ∧
    (scenarioEnv.imread "a.jpg").data.length = 512 * 640 * 3 ∧
    (∀ v ∈ (scenarioEnv.imread "a.jpg").data, v ≤ 255) ∧
    (scenarioEnv.GetIrPhotoTempInfo "a.jpg" 640 512).ret = 0 ∧
    (scenarioEnv.GetIrPhotoTempInfo "a.jpg" 640 512).tempArray.length = 512 ∧
    (∀ row ∈ (scenarioEnv.GetIrPhotoTempInfo "a.jpg" 640 512).tempArray, row.length = 640) ∧
    ∃ out : Mat,
      (processImage scenarioEnv GLOBAL_TEMP_MIN GLOBAL_TEMP_MAX "a.jpg" "a.tif" 640 512).2 =
        [Event.imread "a.jpg", Event.decode "a.jpg", Event.imwrite "a.tif" out] ∧
      (processImage scenarioEnv GLOBAL_TEMP_MIN GLOBAL_TEMP_MAX "a.jpg" "a.tif" 640 512).1
        = true ∧
      out.channels = 4 ∧
      ∀ y x, y < 512 → x < 640 →
        out.sample y x 0 = 0 ∧ out.sample y x 1 = 0 ∧ out.sample y x 2 = 0 ∧
        out.sample y x 3 = 19364 := by
  have hr : GLOBAL_TEMP_MIN < GLOBAL_TEMP_MAX := by norm_num [GLOBAL_TEMP_MIN, GLOBAL_TEMP_MAX]
  have hdata : (scenarioEnv.imread "a.jpg").data = List.replicate (512 * 640 * 3) 0 := rfl
  have hgrid : (scenarioEnv.GetIrPhotoTempInfo "a.jpg" 640 512).tempArray
      = List.replicate 512 (List.replicate 640 (Reading.fin 50)) := rfl
  have hlen : (scenarioEnv.imread "a.jpg").data.length = 512 * 640 * 3 := by
    rw [hdata, List.length_replicate]
  have hzero : ∀ v ∈ (scenarioEnv.imread "a.jpg").data, v = 0 := by
    intro v hv
    rw [hdata] at hv
    exact List.eq_of_mem_replicate hv
  have h8 : ∀ v ∈ (scenarioEnv.imread "a.jpg").data, v ≤ 255 := by
    intro v hv
    rw [hzero v hv]
    omega
  have hgrows : (scenarioEnv.GetIrPhotoTempInfo "a.jpg" 640 512).tempArray.length = 512 := by
    rw [hgrid, List.length_replicate]
  have hrow : ∀ row ∈ (scenarioEnv.GetIrPhotoTempInfo "a.jpg" 640 512).tempArray,
      row = List.replicate 640 (Reading.fin 50) := by
    intro row hmem
    rw [hgrid] at hmem
    exact List.eq_of_mem_replicate hmem
  have hgcols : ∀ row ∈ (scenarioEnv.GetIrPhotoTempInfo "a.jpg" 640 512).tempArray,
      row.length = 640 := by
    intro row hmem
    rw [hrow row hmem, List.length_replicate]
  refine ⟨hr, by norm_num, rfl, rfl, rfl, hlen, h8, rfl, hgrows, hgcols, ?_⟩
  obtain ⟨out, e1, e2, _, _, e5, _, e7⟩ :=
    composite_contents scenarioEnv GLOBAL_TEMP_MIN GLOBAL_TEMP_MAX "a.jpg" "a.tif" 640 512
      hr (by norm_num) rfl rfl rfl hlen h8 rfl hgrows hgcols
  refine ⟨out, e1, e2.trans rfl, e5, fun y x hy hx => ?_⟩
  obtain ⟨rgb, row, t, hrowy, htx, hcode⟩ := e7 y x hy hx
  have chan : ∀ c, c < 3 → out.sample y x c = 0 := by
    intro c hc
    obtain ⟨v, hv, hs, _⟩ := rgb c hc
    have hv0 : v = 0 := hzero v (List.getElem?_mem hv)
    rw [hs, hv0]
  have ht : t = Reading.fin 50 := by
    have hrw := hrow row (List.getElem?_mem hrowy)
    rw [hrw] at htx
    exact List.eq_of_mem_replicate (List.getElem?_mem htx)
  refine ⟨chan 0 (by omega), chan 1 (by omega), chan 2 (by omega), ?_⟩
  rw [hcode, ht]
  exact shipped_code_of_50

/-- The fixed-offset library on an image already at `640 x 512` whose decode
succeeds: the composite handed to `imwrite` has 4 bands and its band 3 holds,
at every pixel, the fixed-offset code of the grid cell at that pixel. -/
theorem ConvertToTiff_band (env : Env) (inputPath outputPath : String)
    (hrows : (env.imread inputPath).rows = 512) (hcols : (env.imread inputPath).cols = 640)
    (hch : (env.imread inputPath).channels = 3)
    (hret : (env.GetIrPhotoTempInfo inputPath 640 512).ret = 0) :
    ∃ out : Mat, (ConvertToTiff env inputPath outputPath).2 = some out ∧
      ((ConvertToTiff env inputPath outputPath).1 = 0 ∨
        (ConvertToTiff env inputPath outputPath).1 = -3) ∧
      out.channels = 4 ∧
      ∀ y x, y < 512 → x < 640 →
        out.sample y x 3 =
          fixedCode (tempAt (env.GetIrPhotoTempInfo inputPath 640 512).tempArray y x) := by
  have hempty : (env.imread inputPath).empty = false := by
    simp only [Mat.empty, hrows, hcols, decide_eq_false_iff_not]
    omega
  have hsame : ¬ ((env.imread inputPath).cols ≠ 640 ∨ (env.imread inputPath).rows ≠ 512) := by
    rw [hrows, hcols]; simp
  obtain ⟨_, _, _, b4, b5⟩ := band_loop_spec
    (fun y x => fixedCode (tempAt (env.GetIrPhotoTempInfo inputPath 640 512).tempArray y x))
    640 (Mat.create 512 640) rfl 512
  have hlen : (Mat.create 512 640).data.length = 512 * 640 := List.length_replicate _ _
  obtain ⟨_, c2, c3, _, c5⟩ := composeChannels_spec (env.imread inputPath)
    (fillBandFixed (env.GetIrPhotoTempInfo inputPath 640 512).tempArray 640 512
      (Mat.create 512 640)) hch
  have hres : (ConvertToTiff env inputPath outputPath).2 = some
      (composeChannels (env.imread inputPath)
        (fillBandFixed (env.GetIrPhotoTempInfo inputPath 640 512).tempArray 640 512
          (Mat.create 512 640))) ∧
      ((ConvertToTiff env inputPath outputPath).1 = 0 ∨
        (ConvertToTiff env inputPath outputPath).1 = -3) := by
    unfold ConvertToTiff
    simp only [hempty, hsame, hret, if_false, ne_eq, not_true_eq_false, Bool.false_eq_true]
    split_ifs
    · exact ⟨rfl, Or.inr rfl⟩
    · exact ⟨rfl, Or.inl rfl⟩
  refine ⟨_, hres.1, hres.2, c3, fun y x hy hx => ?_⟩
  have hk : y * 640 + x < 512 * 640 := by omega
  have hspec := b5 (y * 640 + x)
  rw [hlen, if_pos ⟨hk, hk⟩] at hspec
  have hdiv : (y * 640 + x) / 640 = y := by omega
  have hmod : (y * 640 + x) % 640 = x := by omega
  rw [hdiv, hmod] at hspec
  unfold Mat.sample
  rw [c2, c3, hcols, (c5 (y * 640 + x) (by rw [hrows, hcols]; exact hk)).2]
  exact hspec

/-! ## The configuration guard in the batch run -/

/-- With `max <= min` the call of `processImage` fails at the range check, which
sits after the RGB load (and resize) and the thermal decode. -/
theorem processImage_invalid_range (env : Env) (gmin gmax : ℚ) (inputPath outputPath : String)
    (w h : ℕ) (hbad : gmax ≤ gmin) :
    (processImage env gmin gmax inputPath outputPath w h).1 = false ∧
    (processImage env gmin gmax inputPath outputPath w h).2 =
      if (env.imread inputPath).empty then [Event.imread inputPath]
      else if (env.imread inputPath).cols ≠ w ∨ (env.imread inputPath).rows ≠ h then
        [Event.imread inputPath, Event.resize inputPath, Event.decode inputPath]
      else [Event.imread inputPath, Event.decode inputPath] := by
  have hrange : gmax - gmin ≤ 0 := sub_nonpos.2 hbad
  unfold processImage
  by_cases he : (env.imread inputPath).empty = true
  · simp only [he, if_true, and_self]
  · by_cases hs : (env.imread inputPath).cols ≠ w ∨ (env.imread inputPath).rows ≠ h
    · simp only [he, hs, hrange, if_true, if_false, List.cons_append, List.nil_append,
        Bool.false_eq_true]
      split_ifs <;> exact ⟨rfl, rfl⟩
    · simp only [he, hs, hrange, if_true, if_false, List.cons_append, List.nil_append,
        Bool.false_eq_true]
      split_ifs <;> exact ⟨rfl, rfl⟩

/-- The steps of one failed-at-the-guard image: exactly one load, no write. -/
theorem processImage_invalid_range_events (env : Env) (gmin gmax : ℚ)
    (inputPath outputPath : String) (w h : ℕ) (hbad : gmax ≤ gmin) :
    ((processImage env gmin gmax inputPath outputPath w h).2.filter Event.isLoad).length = 1 ∧
    (processImage env gmin gmax inputPath outputPath w h).2.head? = some (Event.imread inputPath) ∧
    ∀ e ∈ (processImage env gmin gmax inputPath outputPath w h).2, e.isWrite = false := by
  rw [(processImage_invalid_range env gmin gmax inputPath outputPath w h hbad).2]
  split_ifs
  · refine ⟨rfl, rfl, fun e he => ?_⟩
    simp only [List.mem_singleton] at he
    rw [he]; rfl
  · refine ⟨rfl, rfl, fun e he => ?_⟩
    simp only [List.mem_cons, List.mem_singleton, List.not_mem_nil, or_false] at he
    rcases he with he | he | he <;> (rw [he]; rfl)
  · refine ⟨rfl, rfl, fun e he => ?_⟩
    simp only [List.mem_cons, List.mem_singleton, List.not_mem_nil, or_false] at he
    rcases he with he | he <;> (rw [he]; rfl)

/-- The directory loop under an invalid range: no success is counted, every JPEG
entry is counted and loaded once, and no write is added. -/
theorem batch_invalid_range (env : Env) (gmin gmax : ℚ) (outputDir : String)
    (hbad : gmax ≤ gmin) (entries : List DirEntry) (st : BatchState) :
    (entries.foldl (batchStep env gmin gmax outputDir) st).successCount = st.successCount ∧
    (entries.foldl (batchStep env gmin gmax outputDir) st).totalCount =
      st.totalCount + (entries.filter isJpeg).length ∧
    ((entries.foldl (batchStep env gmin gmax outputDir) st).events.filter Event.isLoad).length =
      (st.events.filter Event.isLoad).length + (entries.filter isJpeg).length ∧
    ∀ e ∈ (entries.foldl (batchStep env gmin gmax outputDir) st).events,
      e.isWrite = true → e ∈ st.events := by
  induction entries generalizing st with
  | nil => exact ⟨rfl, rfl, rfl, fun e he _ => he⟩
  | cons entry rest ih =>
    rw [List.foldl_cons]
    obtain ⟨i1, i2, i3, i4⟩ := ih (batchStep env gmin gmax outputDir st entry)
    by_cases hj : isJpeg entry = true
    · obtain ⟨p1, p2⟩ := processImage_invalid_range env gmin gmax entry.path
        (outputDir ++ "/" ++ entry.stem ++ ".tif") 640 512 hbad
      obtain ⟨q1, _, q3⟩ := processImage_invalid_range_events env gmin gmax entry.path
        (outputDir ++ "/" ++ entry.stem ++ ".tif") 640 512 hbad
      have s1 : (batchStep env gmin gmax outputDir st entry).successCount = st.successCount := by
        simp only [batchStep, hj, if_true, p1, Bool.false_eq_true, if_false]
      have s2 : (batchStep env gmin gmax outputDir st entry).totalCount = st.totalCount + 1 := by
        simp only [batchStep, hj, if_true]
      have s3 : (batchStep env gmin gmax outputDir st entry).events = st.events ++
          (processImage env gmin gmax entry.path
            (outputDir ++ "/" ++ entry.stem ++ ".tif") 640 512).2 := by
        simp only [batchStep, hj, if_true]
      have hf : (List.filter isJpeg (entry :: rest)).length =
          (List.filter isJpeg rest).length + 1 := by
        rw [List.filter_cons_of_pos hj, List.length_cons]
      refine ⟨i1.trans s1, ?_, ?_, fun e he hw => ?_⟩
      · rw [i2, s2, hf]; omega
      · rw [i3, s3, List.filter_append, List.length_append, q1, hf]; omega
      · have hmem := i4 e he hw
        rw [s3, List.mem_append] at hmem
        rcases hmem with hmem | hmem
        · exact hmem
        · rw [q3 e hmem] at hw
          exact absurd hw (by decide)
    · have s0 : batchStep env gmin gmax outputDir st entry = st := by
        simp only [batchStep, hj, Bool.false_eq_true, if_false]
      have hf : (List.filter isJpeg (entry :: rest)).length = (List.filter isJpeg rest).length := by
        rw [List.filter_cons_of_neg hj]
      rw [s0] at i1 i2 i3 i4
      rw [s0, hf]
      exact ⟨i1, i2, i3, i4⟩

/-- C6, as stated, fails: with the invalid range `min = max = 0` and a directory
holding one JPEG, the run still performs the per-image RGB load and thermal
decode of that image (the range is checked inside `processImage`, after them),
and the image is counted. -/
theorem guard_reached_after_load_and_decode :
    (0 : ℚ) ≤ 0 ∧
    (main scenarioEnv 0 0 [] oneJpegListing).2.events =
      [Event.imread "../images/a.jpg", Event.decode "../images/a.jpg"] ∧
    (main scenarioEnv 0 0 [] oneJpegListing).2.totalCount = 1 := by
  have hj : isJpeg { path := "../images/a.jpg", stem := "a", extension := ".jpg" } = true := by
    decide
  have hp := (processImage_invalid_range scenarioEnv 0 0 "../images/a.jpg"
    ("../output_tifs" ++ "/" ++ "a" ++ ".tif") 640 512 le_rfl).2
  have he : (scenarioEnv.imread "../images/a.jpg").empty = false := by decide
  have hs : ¬ ((scenarioEnv.imread "../images/a.jpg").cols ≠ 640 ∨
      (scenarioEnv.imread "../images/a.jpg").rows ≠ 512) := by decide
  have h2 : ¬ (2 ≤ ([] : List String).length) := by decide
  have h3 : ¬ (3 ≤ ([] : List String).length) := by decide
  rw [he, if_neg hs] at hp
  refine ⟨le_rfl, ?_, ?_⟩
  · simp only [main, oneJpegListing, h2, h3, if_false,
      List.foldl_cons, List.foldl_nil, batchStep, hj, if_true, List.nil_append]
    simpa using hp
  · simp only [main, oneJpegListing, h2, h3, if_false,
      List.foldl_cons, List.foldl_nil, batchStep, hj, if_true]

/-- C6, amended: when the global range has `max <= min`, the range check inside
`processImage` fails every image, so no image is encoded or written (no output
TIFF), the success count is `0` and the exit code is `0`; the run is not
stopped beforehand: every `.jpg`/`.jpeg` entry of the listing is counted and
its RGB image is loaded once. -/
theorem config_guard (env : Env) (gmin gmax : ℚ) (argv : List String)
    (listing : String → List DirEntry) (hbad : gmax ≤ gmin) :
    (main env gmin gmax argv listing).1 = 0 ∧
    (main env gmin gmax argv listing).2.successCount = 0 ∧
    (∀ e ∈ (main env gmin gmax argv listing).2.events, e.isWrite = false) ∧
    (main env gmin gmax argv listing).2.totalCount =
      ((listing (if 2 ≤ argv.length then argv.getD 1 "" else "../images")).filter isJpeg).length ∧
    ((main env gmin gmax argv listing).2.events.filter Event.isLoad).length =
      (main env gmin gmax argv listing).2.totalCount := by
  obtain ⟨b1, b2, b3, b4⟩ := batch_invalid_range env gmin gmax
    (if 3 ≤ argv.length then argv.getD 2 "" else "../output_tifs") hbad
    (listing (if 2 ≤ argv.length then argv.getD 1 "" else "../images"))
    { totalCount := 0, successCount := 0, events := [] }
  refine ⟨rfl, b1, fun e he => ?_, ?_, ?_⟩
  · cases hw : e.isWrite with
    | false => rfl
    | true => exact absurd (b4 e he hw) (List.not_mem_nil e)
  · unfold main
    simp only [b2, Nat.zero_add]
  · unfold main
    simp only [b2, b3, List.filter_nil, List.length_nil, Nat.zero_add]

/-- Witness for C6: the range `min = max = 0` on a directory with one JPEG. -/
theorem config_guard_witness :
    (0 : ℚ) ≤ 0 ∧
    (main scenarioEnv 0 0 [] oneJpegListing).1 = 0 ∧
    (main scenarioEnv 0 0 [] oneJpegListing).2.successCount = 0 ∧
    (∀ e ∈ (main scenarioEnv 0 0 [] oneJpegListing).2.events, e.isWrite = false) :=
  ⟨le_rfl, (config_guard scenarioEnv 0 0 [] oneJpegListing le_rfl).1,
   (config_guard scenarioEnv 0 0 [] oneJpegListing le_rfl).2.1,
   (config_guard scenarioEnv 0 0 [] oneJpegListing le_rfl).2.2.1⟩

/-! ## The buffer check of `GetMetadataJSON` -/

theorem toSizeT_of_nonneg {bits : ℕ} {i : ℤ} (h0 : 0 ≤ i) (h1 : i < (2 : ℤ) ^ bits) :
    toSizeT bits i = i.toNat := by
  unfold toSizeT
  rw [Int.emod_eq_of_lt h0 h1]

/-- For a capacity that is not negative, `GetMetadataJSON` answers `-2` without
writing when the payload and its terminator do not fit, and `0` with the whole
payload otherwise. -/
theorem metadata_status_nonneg (env : Env) (bits : ℕ) (inputPath : String) (bufferLen : ℤ)
    (hret : (env.GetIrPhotoTempInfo inputPath 640 512).ret = 0)
    (h0 : 0 ≤ bufferLen) (h1 : bufferLen < (2 : ℤ) ^ bits)
    (hsz : (env.dump (metadataPayload (env.GetIrPhotoTempInfo inputPath 640 512))).utf8ByteSize
      + 1 < 2 ^ bits) :
    GetMetadataJSON env bits inputPath bufferLen =
      if bufferLen <
        ((env.dump (metadataPayload (env.GetIrPhotoTempInfo inputPath 640 512))).utf8ByteSize
          : ℤ) + 1
      then some (-2, none)
      else some (0, some (env.dump (metadataPayload (env.GetIrPhotoTempInfo inputPath 640 512)))) := by
  unfold GetMetadataJSON
  simp only [hret, ne_eq, not_true_eq_false, if_false, toSizeT_of_nonneg h0 h1,
    Nat.mod_eq_of_lt hsz, strcpy_s]
  by_cases hfit : bufferLen <
      ((env.dump (metadataPayload (env.GetIrPhotoTempInfo inputPath 640 512))).utf8ByteSize
        : ℤ) + 1
  · have hgt : (env.dump (metadataPayload (env.GetIrPhotoTempInfo inputPath 640 512))).utf8ByteSize
        + 1 > bufferLen.toNat := by omega
    rw [if_pos hgt, if_pos hfit]
  · have hle : (env.dump (metadataPayload (env.GetIrPhotoTempInfo inputPath 640 512))).utf8ByteSize
        + 1 ≤ bufferLen.toNat := by omega
    rw [if_neg (by omega), if_neg hfit, if_pos hle]

/-- C9 at the failing input: the decode succeeds, the payload `{}` needs `3`
bytes, the capacity is `-1`, and `GetMetadataJSON` returns `0` instead of `-2`
(for a 64-bit and for a 32-bit `size_t`): the comparison converts the negative
`int` to a huge unsigned value. -/
theorem metadata_negative_capacity_accepted :
    (scenarioEnv.GetIrPhotoTempInfo "a.jpg" 640 512).ret = 0 ∧
    (-1 : ℤ) < ((scenarioEnv.dump
      (metadataPayload (scenarioEnv.GetIrPhotoTempInfo "a.jpg" 640 512))).utf8ByteSize : ℤ) + 1 ∧
    GetMetadataJSON scenarioEnv 64 "a.jpg" (-1) = some (0, some "{}") ∧
    GetMetadataJSON scenarioEnv 32 "a.jpg" (-1) = some (0, some "{}") ∧
    GetMetadataJSON scenarioEnv 64 "a.jpg" 0 = some (-2, none) := by
  refine ⟨rfl, by decide, by decide, by decide, by decide⟩

/-! ## Properties of the binary32 rounding -/

theorem pow2_pos (e : ℤ) : (0 : ℚ) < 2 ^ e := zpow_pos (by norm_num) e

theorem pow2_le {a b : ℤ} (h : a ≤ b) : (2 : ℚ) ^ a ≤ 2 ^ b :=
  zpow_le_zpow_right₀ (by norm_num) h

theorem pow2_lt {a b : ℤ} (h : a < b) : (2 : ℚ) ^ a < 2 ^ b :=
  zpow_lt_zpow_right₀ (by norm_num) h

theorem pow2_add (a b : ℤ) : (2 : ℚ) ^ (a + b) = 2 ^ a * 2 ^ b :=
  zpow_add₀ (by norm_num) a b

/-- A non-negative power of two is a positive integer. -/
theorem pow2_int {n : ℤ} (h : 0 ≤ n) : ∃ k : ℤ, 0 < k ∧ (2 : ℚ) ^ n = (k : ℚ) := by
  refine ⟨2 ^ n.toNat, by positivity, ?_⟩
  have hn : n = (n.toNat : ℤ) := (Int.toNat_of_nonneg h).symm
  conv_lhs => rw [hn]
  rw [zpow_natCast]
  push_cast
  rfl

theorem log2_bounds {r : ℚ} (hr : 0 < r) :
    (2 : ℚ) ^ Int.log 2 r ≤ r ∧ r < 2 ^ (Int.log 2 r + 1) := by
  have h1 := Int.zpow_log_le_self (b := 2) (r := r) (by norm_num) hr
  have h2 := Int.lt_zpow_succ_log_self (b := 2) (by norm_num) r
  simp only [Nat.cast_ofNat] at h1 h2
  exact ⟨h1, h2⟩

theorem le_log2 {r : ℚ} {e : ℤ} (hr : 0 < r) (h : (2 : ℚ) ^ e ≤ r) : e ≤ Int.log 2 r := by
  have h1 := (Int.zpow_le_iff_le_log (b := 2) (by norm_num) (x := e) hr)
  simp only [Nat.cast_ofNat] at h1
  exact h1.1 h

theorem log2_lt {r : ℚ} {e : ℤ} (hr : 0 < r) (h : r < (2 : ℚ) ^ e) : Int.log 2 r < e := by
  have h1 := (Int.lt_zpow_iff_log_lt (b := 2) (by norm_num) (x := e) hr)
  simp only [Nat.cast_ofNat] at h1
  exact h1.1 h

theorem log2_eq {r : ℚ} {e : ℤ} (h1 : (2 : ℚ) ^ e ≤ r) (h2 : r < (2 : ℚ) ^ (e + 1)) :
    Int.log 2 r = e := by
  have hr : 0 < r := lt_of_lt_of_le (pow2_pos e) h1
  have a := le_log2 hr h1
  have b := log2_lt hr h2
  omega

theorem rne_ge_floor (q : ℚ) : ⌊q⌋ ≤ roundNearestEven q := by
  unfold roundNearestEven
  split_ifs <;> omega

theorem rne_le_floor_succ (q : ℚ) : roundNearestEven q ≤ ⌊q⌋ + 1 := by
  unfold roundNearestEven
  split_ifs <;> omega

theorem rne_intCast (k : ℤ) : roundNearestEven (k : ℚ) = k := by
  unfold roundNearestEven
  rw [Int.floor_intCast, sub_self, if_pos (by norm_num)]

theorem int_le_rne {m : ℤ} {q : ℚ} (h : (m : ℚ) ≤ q) : m ≤ roundNearestEven q :=
  le_trans (Int.le_floor.2 h) (rne_ge_floor q)

theorem rne_le_int {M : ℤ} {q : ℚ} (h : q ≤ (M : ℚ)) : roundNearestEven q ≤ M := by
  rcases eq_or_lt_of_le h with heq | hlt
  · rw [heq, rne_intCast]
  · have : ⌊q⌋ < M := Int.floor_lt.2 hlt
    have := rne_le_floor_succ q
    omega

theorem rne_le_add_one (q : ℚ) : (roundNearestEven q : ℚ) ≤ q + 1 := by
  have h1 : (roundNearestEven q : ℚ) ≤ ((⌊q⌋ + 1 : ℤ) : ℚ) := by
    exact_mod_cast rne_le_floor_succ q
  have h2 : ((⌊q⌋ : ℤ) : ℚ) ≤ q := Int.floor_le q
  push_cast at h1
  linarith

theorem quantize_nonneg {x : ℚ} (h : 0 ≤ x) : 0 ≤ quantize x := by
  unfold quantize
  have hq : ((0 : ℤ) : ℚ) ≤ x / 2 ^ ulpExp x := by
    push_cast
    exact div_nonneg h (pow2_pos _).le
  have hm : (0 : ℤ) ≤ roundNearestEven (x / 2 ^ ulpExp x) := int_le_rne hq
  have : (0 : ℚ) ≤ (roundNearestEven (x / 2 ^ ulpExp x) : ℚ) := by exact_mod_cast hm
  exact mul_nonneg this (pow2_pos _).le

theorem quantize_nonpos {x : ℚ} (h : x ≤ 0) : quantize x ≤ 0 := by
  unfold quantize
  have hq : x / 2 ^ ulpExp x ≤ ((0 : ℤ) : ℚ) := by
    push_cast
    exact div_nonpos_of_nonpos_of_nonneg h (pow2_pos _).le
  have hm : roundNearestEven (x / 2 ^ ulpExp x) ≤ (0 : ℤ) := rne_le_int hq
  have : (roundNearestEven (x / 2 ^ ulpExp x) : ℚ) ≤ 0 := by exact_mod_cast hm
  exact mul_nonpos_of_nonpos_of_nonneg this (pow2_pos _).le

/-- Rounding does not fall below a power of two that the operand reaches. -/
theorem quantize_ge_pow2 {x : ℚ} {j : ℤ} (hj : -126 ≤ j) (h : (2 : ℚ) ^ j ≤ x) :
    (2 : ℚ) ^ j ≤ quantize x := by
  have hx : 0 < x := lt_of_lt_of_le (pow2_pos j) h
  have hk := le_log2 hx h
  obtain ⟨b1, _⟩ := log2_bounds hx
  have he : ulpExp x = Int.log 2 x - 23 := by
    unfold ulpExp
    rw [abs_of_pos hx]
    exact max_eq_left (by omega)
  unfold quantize
  rw [he]
  have hsplit : (2 : ℚ) ^ Int.log 2 x = 2 ^ (23 : ℤ) * 2 ^ (Int.log 2 x - 23) := by
    rw [← pow2_add]; congr 1; ring
  have hq : (((2 : ℤ) ^ 23 : ℤ) : ℚ) ≤ x / 2 ^ (Int.log 2 x - 23) := by
    rw [le_div_iff₀ (pow2_pos _)]
    have : (((2 : ℤ) ^ 23 : ℤ) : ℚ) = (2 : ℚ) ^ (23 : ℤ) := by norm_num
    rw [this, ← hsplit]
    exact b1
  have hm := int_le_rne hq
  have hm' : ((2 : ℚ) ^ (23 : ℤ)) ≤ (roundNearestEven (x / 2 ^ (Int.log 2 x - 23)) : ℚ) := by
    have : (((2 : ℤ) ^ 23 : ℤ) : ℚ) ≤ (roundNearestEven (x / 2 ^ (Int.log 2 x - 23)) : ℚ) := by
      exact_mod_cast hm
    have h2 : (((2 : ℤ) ^ 23 : ℤ) : ℚ) = (2 : ℚ) ^ (23 : ℤ) := by norm_num
    rwa [h2] at this
  calc (2 : ℚ) ^ j ≤ 2 ^ Int.log 2 x := pow2_le hk
    _ = 2 ^ (23 : ℤ) * 2 ^ (Int.log 2 x - 23) := hsplit
    _ ≤ _ := mul_le_mul_of_nonneg_right hm' (pow2_pos _).le

/-- Rounding does not rise above a power of two that bounds the operand. -/
theorem quantize_le_pow2 {x : ℚ} {j : ℤ} (hj : -149 ≤ j) (h0 : 0 ≤ x) (h : x ≤ (2 : ℚ) ^ j) :
    quantize x ≤ (2 : ℚ) ^ j := by
  rcases eq_or_lt_of_le h0 with hz | hx
  · rw [← hz]
    exact le_trans (quantize_nonpos le_rfl) (pow2_pos j).le
  · have he : ulpExp x ≤ j := by
      unfold ulpExp
      rw [abs_of_pos hx]
      have hlog : Int.log 2 x ≤ j := by
        have := log2_lt hx (lt_of_le_of_lt h (pow2_lt (Int.lt_succ j)))
        omega
      exact max_le (by omega) hj
    obtain ⟨k, _, hk⟩ := pow2_int (n := j - ulpExp x) (by omega)
    have hsplit : (2 : ℚ) ^ j = 2 ^ (j - ulpExp x) * 2 ^ ulpExp x := by
      rw [← pow2_add]; congr 1; ring
    have hq : x / 2 ^ ulpExp x ≤ (k : ℚ) := by
      rw [div_le_iff₀ (pow2_pos _), ← hk, ← hsplit]
      exact h
    have hm := rne_le_int hq
    have hm' : (roundNearestEven (x / 2 ^ ulpExp x) : ℚ) ≤ (k : ℚ) := by exact_mod_cast hm
    unfold quantize
    rw [hsplit, hk]
    exact mul_le_mul_of_nonneg_right hm' (pow2_pos _).le

/-- A number on the grid of its own binade is not changed by rounding. -/
theorem quantize_exact {x : ℚ} {N g : ℤ} (hx : x = (N : ℚ) * 2 ^ g) (hg : ulpExp x ≤ g) :
    quantize x = x := by
  obtain ⟨k, _, hk⟩ := pow2_int (n := g - ulpExp x) (by omega)
  have hsplit : (2 : ℚ) ^ g = 2 ^ (g - ulpExp x) * 2 ^ ulpExp x := by
    rw [← pow2_add]; congr 1; ring
  have hq : x / 2 ^ ulpExp x = ((N * k : ℤ) : ℚ) := by
    rw [div_eq_iff (pow2_pos _).ne']
    conv_lhs => rw [hx, hsplit, hk]
    push_cast
    ring
  unfold quantize
  rw [hq, rne_intCast, ← hq, div_mul_cancel₀ _ (pow2_pos _).ne']

/-- Rounding raises the operand by at most one unit in the last place. -/
theorem quantize_le_add_ulp (x : ℚ) : quantize x ≤ x + 2 ^ ulpExp x := by
  unfold quantize
  have h := rne_le_add_one (x / 2 ^ ulpExp x)
  have h2 := mul_le_mul_of_nonneg_right h (pow2_pos (ulpExp x)).le
  rw [add_mul, div_mul_cancel₀ _ (pow2_pos _).ne', one_mul] at h2
  exact h2

theorem rne_neg (q : ℚ) : roundNearestEven (-q) = -roundNearestEven q := by
  have h1 : ((⌊q⌋ : ℤ) : ℚ) ≤ q := Int.floor_le q
  have h2 : q < ((⌊q⌋ : ℤ) : ℚ) + 1 := Int.lt_floor_add_one q
  rcases eq_or_lt_of_le h1 with heq | hlt
  · have hq : q = ((⌊q⌋ : ℤ) : ℚ) := heq.symm
    have hn : -q = ((-⌊q⌋ : ℤ) : ℚ) := by rw [Int.cast_neg, ← hq]
    rw [hn, rne_intCast]
    conv_rhs => rw [hq, rne_intCast]
  · have hfl : ⌊-q⌋ = -⌊q⌋ - 1 := by
      rw [Int.floor_eq_iff]
      push_cast
      constructor <;> linarith
    unfold roundNearestEven
    rw [hfl]
    push_cast
    by_cases c1 : q - (⌊q⌋ : ℚ) < 1 / 2
    · have d1 : ¬ (-q - (-(⌊q⌋ : ℚ) - 1) < 1 / 2) := by linarith
      have d2 : 1 / 2 < -q - (-(⌊q⌋ : ℚ) - 1) := by linarith
      rw [if_pos c1, if_neg d1, if_pos d2]
      ring
    · by_cases c2 : 1 / 2 < q - (⌊q⌋ : ℚ)
      · have d1 : -q - (-(⌊q⌋ : ℚ) - 1) < 1 / 2 := by linarith
        rw [if_neg c1, if_pos c2, if_pos d1]
        ring
      · have d1 : ¬ (-q - (-(⌊q⌋ : ℚ) - 1) < 1 / 2) := by linarith
        have d2 : ¬ (1 / 2 < -q - (-(⌊q⌋ : ℚ) - 1)) := by linarith
        rw [if_neg c1, if_neg c2, if_neg d1, if_neg d2]
        by_cases ev : ⌊q⌋ % 2 = 0
        · have od : ¬ ((-⌊q⌋ - 1) % 2 = 0) := by omega
          rw [if_pos ev, if_neg od]
          ring
        · have od : (-⌊q⌋ - 1) % 2 = 0 := by omega
          rw [if_neg ev, if_pos od]
          ring

theorem ulpExp_neg (x : ℚ) : ulpExp (-x) = ulpExp x := by
  unfold ulpExp
  rw [abs_neg]

theorem quantize_neg (x : ℚ) : quantize (-x) = -quantize x := by
  unfold quantize
  rw [ulpExp_neg, neg_div, rne_neg]
  push_cast
  ring

theorem abs_quantize (x : ℚ) : |quantize x| = quantize |x| := by
  rcases le_total 0 x with h | h
  · rw [abs_of_nonneg h, abs_of_nonneg (quantize_nonneg h)]
  · rw [abs_of_nonpos h, abs_of_nonpos (quantize_nonpos h), quantize_neg]

theorem ulpExp_ge (x : ℚ) : -149 ≤ ulpExp x := le_max_right _ _

theorem ulpExp_of_binade {x : ℚ} {k : ℤ} (hk : -126 ≤ k) (h1 : (2 : ℚ) ^ k ≤ x)
    (h2 : x < (2 : ℚ) ^ (k + 1)) : ulpExp x = k - 23 := by
  have hx : 0 < x := lt_of_lt_of_le (pow2_pos k) h1
  unfold ulpExp
  rw [abs_of_pos hx, log2_eq h1 h2]
  exact max_eq_left (by omega)

/-- The `float` result is the rounded value whenever that stays below `2^128`. -/
theorem roundF32_of_lt {x : ℚ} (h : |quantize x| < (2 : ℚ) ^ (128 : ℤ)) :
    roundF32 x = Reading.fin (quantize x) := by
  unfold roundF32
  rw [if_neg (not_le.2 h)]

theorem roundF32_ne_nan (x : ℚ) : roundF32 x ≠ Reading.nan := by
  unfold roundF32
  split_ifs <;> simp

/-- A positive rounded value of at least `1/2` lies on the grid of its own binade. -/
theorem quantize_on_grid {v : ℚ} (hx : 1 / 2 ≤ quantize v) :
    ∃ M : ℤ, quantize v = (M : ℚ) * 2 ^ ulpExp (quantize v) := by
  have hv : 0 < v := by
    by_contra hneg
    have := quantize_nonpos (not_lt.1 hneg)
    linarith
  obtain ⟨b1, b2⟩ := log2_bounds hv
  have hk : -126 ≤ Int.log 2 v := by
    by_contra hlt
    have hle : v ≤ (2 : ℚ) ^ (-126 : ℤ) := le_trans b2.le (pow2_le (by omega))
    have := quantize_le_pow2 (by norm_num) hv.le hle
    have hsmall : (2 : ℚ) ^ (-126 : ℤ) < 1 / 2 := by
      have : (1 / 2 : ℚ) = 2 ^ (-1 : ℤ) := by norm_num
      rw [this]
      exact pow2_lt (by norm_num)
    exact absurd (lt_of_le_of_lt (le_trans hx this) hsmall) (lt_irrefl _)
  have lo := quantize_ge_pow2 hk b1
  have hi := quantize_le_pow2 (by omega) hv.le b2.le
  have he : ulpExp v = Int.log 2 v - 23 := ulpExp_of_binade hk b1 b2
  rcases eq_or_lt_of_le hi with heq | hlt
  · refine ⟨2 ^ 23, ?_⟩
    have hb : ulpExp (quantize v) = Int.log 2 v + 1 - 23 :=
      ulpExp_of_binade (by omega) heq.ge (by rw [heq]; exact pow2_lt (by omega))
    rw [hb, heq]
    have : (((2 : ℤ) ^ 23 : ℤ) : ℚ) = (2 : ℚ) ^ (23 : ℤ) := by norm_num
    rw [this, ← pow2_add]
    congr 1
    ring
  · refine ⟨roundNearestEven (v / 2 ^ ulpExp v), ?_⟩
    have hb : ulpExp (quantize v) = Int.log 2 v - 23 := ulpExp_of_binade hk lo hlt
    rw [hb, ← he]
    rfl

theorem half_eq_pow2 : (1 / 2 : ℚ) = 2 ^ (-1 : ℤ) := by norm_num

/-- Exactly representable operands below `2^128` are returned unchanged. -/
theorem roundF32_exact {x : ℚ} {N g : ℤ} (hx : x = (N : ℚ) * 2 ^ g) (hg : ulpExp x ≤ g)
    (hlt : |x| < (2 : ℚ) ^ (128 : ℤ)) : roundF32 x = Reading.fin x := by
  have hq := quantize_exact hx hg
  rw [roundF32_of_lt (by rw [hq]; exact hlt), hq]

theorem roundF32_half : roundF32 (0 + 1 / 2) = Reading.fin (1 / 2) := by
  have hu : ulpExp (1 / 2 : ℚ) = -1 - 23 :=
    ulpExp_of_binade (by norm_num) (by norm_num) (by norm_num)
  rw [zero_add]
  exact roundF32_exact (N := 1) (g := -1) (by norm_num) (by rw [hu]; norm_num)
    (by rw [abs_of_pos (by norm_num)]; norm_num)

theorem roundF32_top : roundF32 (65535 + 1 / 2) = Reading.fin (65535 + 1 / 2) := by
  have hu : ulpExp (65535 + 1 / 2 : ℚ) = 15 - 23 :=
    ulpExp_of_binade (by norm_num) (by norm_num) (by norm_num)
  exact roundF32_exact (N := 131071) (g := -1) (by norm_num) (by rw [hu]; norm_num)
    (by rw [abs_of_pos (by norm_num)]; norm_num)

theorem castU16_half : castU16 (1 / 2) = 0 := by
  have h : ((castU16 (1 / 2) : ℕ) : ℤ) = ⌊(1 / 2 : ℚ)⌋ :=
    castU16_eq_floor (by norm_num) (by norm_num)
  rw [floor_half] at h
  exact_mod_cast h

theorem castU16_top : castU16 (65535 + 1 / 2) = 65535 := by
  have h : ((castU16 (65535 + 1 / 2) : ℕ) : ℤ) = ⌊(65535 + 1 / 2 : ℚ)⌋ :=
    castU16_eq_floor (by norm_num) (by norm_num)
  rw [floor_top] at h
  exact_mod_cast h

/-- For a float `x` in `[1/2, 65535)` the rounded sum `x + 0.5f` has the same
integer part as the exact sum. -/
theorem floor_quantize_add_half {x : ℚ} (h1 : 1 / 2 ≤ x) (h2 : x < 65535)
    (hgrid : ∃ M : ℤ, x = (M : ℚ) * 2 ^ ulpExp x) :
    ⌊quantize (x + 1 / 2)⌋ = ⌊x + 1 / 2⌋ := by
  have hx : 0 < x := by linarith
  obtain ⟨b1, b2⟩ := log2_bounds hx
  have hK1 : -1 ≤ Int.log 2 x := le_log2 hx (by rw [← half_eq_pow2]; exact h1)
  have hK2 : Int.log 2 x < 16 := log2_lt hx (by
    have : (2 : ℚ) ^ (16 : ℤ) = 65536 := by norm_num
    rw [this]; linarith)
  have hu : ulpExp x = Int.log 2 x - 23 := ulpExp_of_binade (by omega) b1 b2
  obtain ⟨M, hM⟩ := hgrid
  rw [hu] at hM
  rcases lt_or_le (x + 1 / 2) ((2 : ℚ) ^ (Int.log 2 x + 1)) with hsame | hup
  · obtain ⟨k, _, hk⟩ := pow2_int (n := 22 - Int.log 2 x) (by omega)
    have hhalf : (1 / 2 : ℚ) = (k : ℚ) * 2 ^ (Int.log 2 x - 23) := by
      rw [← hk, ← pow2_add, half_eq_pow2]
      congr 1
      ring
    have hy : x + 1 / 2 = ((M + k : ℤ) : ℚ) * 2 ^ (Int.log 2 x - 23) := by
      push_cast
      rw [add_mul, ← hM, ← hhalf]
    have huy : ulpExp (x + 1 / 2) = Int.log 2 x - 23 :=
      ulpExp_of_binade (by omega) (by linarith) hsame
    rw [quantize_exact hy (by rw [huy])]
  · obtain ⟨N, _, hN⟩ := pow2_int (n := Int.log 2 x + 1) (by omega)
    have hone : (1 : ℚ) ≤ 2 ^ (Int.log 2 x + 1) := by
      have : (1 : ℚ) = 2 ^ (0 : ℤ) := by norm_num
      rw [this]
      exact pow2_le (by omega)
    have hnext : x + 1 / 2 < (2 : ℚ) ^ (Int.log 2 x + 1 + 1) := by
      rw [pow2_add]
      norm_num
      linarith
    have huy : ulpExp (x + 1 / 2) = Int.log 2 x + 1 - 23 :=
      ulpExp_of_binade (by omega) hup hnext
    have hsmall : (2 : ℚ) ^ (Int.log 2 x + 1 - 23) < 1 / 2 := by
      rw [half_eq_pow2]
      exact pow2_lt (by omega)
    have lo := quantize_ge_pow2 (by omega) hup
    have hi := quantize_le_add_ulp (x + 1 / 2)
    rw [huy] at hi
    rw [hN] at lo hup b2
    have f1 : ⌊x + 1 / 2⌋ = N := by
      rw [Int.floor_eq_iff]
      constructor <;> linarith
    have f2 : ⌊quantize (x + 1 / 2)⌋ = N := by
      rw [Int.floor_eq_iff]
      constructor <;> linarith
    rw [f1, f2]

/-- For a float `x` in `(0, 1/2)` that is a multiple of `2^-10` the sum
`x + 0.5f` is exact. -/
theorem quantize_add_half_small {x : ℚ} {N : ℤ} (h0 : 0 < x) (h1 : x < 1 / 2)
    (hN : x = (N : ℚ) * 2 ^ (-10 : ℤ)) : quantize (x + 1 / 2) = x + 1 / 2 := by
  have hy : x + 1 / 2 = ((N + 512 : ℤ) : ℚ) * 2 ^ (-10 : ℤ) := by
    push_cast
    rw [add_mul, ← hN]
    norm_num
  have huy : ulpExp (x + 1 / 2) = -1 - 23 :=
    ulpExp_of_binade (by norm_num) (by rw [← half_eq_pow2]; linarith) (by norm_num; linarith)
  exact quantize_exact hy (by rw [huy]; norm_num)

/-- A small positive rounded sum `a + 10000.0f` of a float `a` is exact and a
multiple of `2^-10`. -/
theorem sum_on_coarse_grid {w : ℚ} (h0 : 0 < quantize (quantize w + 10000))
    (h1 : quantize (quantize w + 10000) < 1 / 2) :
    ∃ N : ℤ, quantize (quantize w + 10000) = (N : ℚ) * 2 ^ (-10 : ℤ) := by
  have hv0 : 0 < quantize w + 10000 := by
    by_contra hneg
    have := quantize_nonpos (not_lt.1 hneg)
    linarith
  have hv1 : quantize w + 10000 < 1 / 2 := by
    by_contra hge
    have hge' : (2 : ℚ) ^ (-1 : ℤ) ≤ quantize w + 10000 := by
      rw [← half_eq_pow2]; exact not_lt.1 hge
    have := quantize_ge_pow2 (by norm_num) hge'
    rw [← half_eq_pow2] at this
    linarith
  have habs : (8192 : ℚ) < |quantize w| := by
    rw [abs_of_neg (by linarith)]
    linarith
  have hwpos : 0 < |w| := by
    rcases eq_or_ne w 0 with hz | hnz
    · exfalso
      rw [hz] at habs
      have hq0 : quantize 0 = 0 :=
        le_antisymm (quantize_nonpos le_rfl) (quantize_nonneg le_rfl)
      rw [hq0, abs_zero] at habs
      linarith
    · exact abs_pos.2 hnz
  have hwbig : (2 : ℚ) ^ (13 : ℤ) < |w| := by
    by_contra hle
    have := quantize_le_pow2 (j := 13) (by norm_num) (abs_nonneg w) (not_lt.1 hle)
    rw [← abs_quantize] at this
    have h13 : (2 : ℚ) ^ (13 : ℤ) = 8192 := by norm_num
    linarith
  have hlog : 13 ≤ Int.log 2 |w| := le_log2 hwpos hwbig.le
  have hue : -10 ≤ ulpExp w := by
    unfold ulpExp
    exact le_trans (by omega) (le_max_left _ _)
  obtain ⟨k, _, hk⟩ := pow2_int (n := ulpExp w + 10) (by omega)
  have hsplit : (2 : ℚ) ^ ulpExp w = (k : ℚ) * 2 ^ (-10 : ℤ) := by
    rw [← hk, ← pow2_add]
    congr 1
    ring
  obtain ⟨m, hm⟩ : ∃ m : ℤ, quantize w = (m : ℚ) * 2 ^ ulpExp w := ⟨_, rfl⟩
  have hv : quantize w + 10000 = ((m * k + 10240000 : ℤ) : ℚ) * 2 ^ (-10 : ℤ) := by
    rw [hm, hsplit]
    push_cast
    norm_num
    ring
  have hlogv : Int.log 2 (quantize w + 10000) < -1 :=
    log2_lt hv0 (by rw [← half_eq_pow2]; exact hv1)
  have huv : ulpExp (quantize w + 10000) ≤ -10 := by
    unfold ulpExp
    rw [abs_of_pos hv0]
    exact max_le (by omega) (by norm_num)
  refine ⟨m * k + 10240000, ?_⟩
  rw [quantize_exact hv huv]
  exact hv

theorem store_zero :
    castU16F32 (addF32 (Reading.fin 0) (1 / 2)) = 0 := by
  show castU16F32 (roundF32 (0 + 1 / 2)) = 0
  rw [roundF32_half]
  exact castU16_half

theorem store_top :
    castU16F32 (addF32 (Reading.fin 65535) (1 / 2)) = 65535 := by
  show castU16F32 (roundF32 (65535 + 1 / 2)) = 65535
  rw [roundF32_top]
  exact castU16_top

/-- The clamp, the `+ 0.5f` and the conversion applied to a finite float `x`
give the specified value for `x`, provided `x` is a float that can arise as
the sum `a + 10000.0f`. -/
theorem store_of_fin (x : ℚ)
    (hrep : 1 / 2 ≤ x → ∃ M : ℤ, x = (M : ℚ) * 2 ^ ulpExp x)
    (hsmall : 0 < x → x < 1 / 2 → ∃ N : ℤ, x = (N : ℚ) * 2 ^ (-10 : ℤ)) :
    castU16F32 (addF32 (maxF32 0 (minF32 65535 (Reading.fin x))) (1 / 2)) =
      specClampRound (Reading.fin x) := by
  rcases le_or_lt x 0 with hneg | hpos
  · have hmin : minF32 65535 (Reading.fin x) = Reading.fin x := by
      simp only [minF32]
      rw [if_pos (by linarith)]
    have hmax : maxF32 0 (Reading.fin x) = Reading.fin 0 := by
      simp only [maxF32]
      rw [if_neg (not_lt.2 hneg)]
    rw [hmin, hmax, store_zero]
    have hr : roundHalfAway x ≤ 0 := by
      unfold roundHalfAway
      split_ifs with h0
      · have hx0 : x = 0 := le_antisymm hneg h0
        rw [hx0, zero_add, floor_half]
      · rw [Int.ceil_le]
        push_cast
        linarith
    simp only [specClampRound]
    rw [min_eq_right (by omega), max_eq_left hr]
    rfl
  · rcases le_or_lt 65535 x with htop | hlt
    · have hmin : minF32 65535 (Reading.fin x) = Reading.fin 65535 := by
        simp only [minF32]
        rw [if_neg (not_lt.2 htop)]
      have hmax : maxF32 0 (Reading.fin 65535) = Reading.fin 65535 := by
        simp only [maxF32]
        rw [if_pos (by norm_num)]
      rw [hmin, hmax, store_top]
      have hr : 65535 ≤ roundHalfAway x := by
        unfold roundHalfAway
        rw [if_pos hpos.le, Int.le_floor]
        push_cast
        linarith
      simp only [specClampRound]
      rw [min_eq_left hr]
      rfl
    · have hmin : minF32 65535 (Reading.fin x) = Reading.fin x := by
        simp only [minF32]
        rw [if_pos hlt]
      have hmax : maxF32 0 (Reading.fin x) = Reading.fin x := by
        simp only [maxF32]
        rw [if_pos hpos]
      have hfloor : ⌊quantize (x + 1 / 2)⌋ = ⌊x + 1 / 2⌋ := by
        rcases le_or_lt (1 / 2) x with hge | hsm
        · exact floor_quantize_add_half hge hlt (hrep hge)
        · obtain ⟨N, hN⟩ := hsmall hpos hsm
          rw [quantize_add_half_small hpos hsm hN]
      have hf0 : 0 ≤ ⌊x + 1 / 2⌋ := Int.floor_nonneg.2 (by linarith)
      have hf1 : ⌊x + 1 / 2⌋ < 65536 := Int.floor_lt.2 (by push_cast; linarith)
      have hq0 : 0 ≤ quantize (x + 1 / 2) := quantize_nonneg (by linarith)
      have hq1 : quantize (x + 1 / 2) < 65536 := by
        have : ⌊quantize (x + 1 / 2)⌋ < 65536 := by rw [hfloor]; exact hf1
        have := Int.floor_lt.1 this
        exact_mod_cast this
      have hfin : roundF32 (x + 1 / 2) = Reading.fin (quantize (x + 1 / 2)) := by
        apply roundF32_of_lt
        rw [abs_of_nonneg hq0]
        have : (65536 : ℚ) < 2 ^ (128 : ℤ) := by norm_num
        linarith
      rw [hmin, hmax]
      show castU16F32 (roundF32 (x + 1 / 2)) = _
      rw [hfin]
      have hc := castU16_eq_floor hq0 hq1
      rw [hfloor] at hc
      simp only [specClampRound, castU16F32]
      unfold roundHalfAway
      rw [if_pos hpos.le, min_eq_right (by omega), max_eq_right hf0]
      omega

/-- The stored code is the specified value of the computed float, for an
infinite or a finite result of the sum `a + 10000.0f`. -/
theorem store_of_sum (a : ℚ) (ha : ∃ w : ℚ, a = quantize w) :
    roundF32 (a + 10000) ≠ Reading.nan ∧
    castU16F32 (addF32 (maxF32 0 (minF32 65535 (roundF32 (a + 10000)))) (1 / 2)) =
      specClampRound (roundF32 (a + 10000)) := by
  refine ⟨roundF32_ne_nan _, ?_⟩
  obtain ⟨w, hw⟩ := ha
  unfold roundF32
  split_ifs
  · exact store_top
  · exact store_zero
  · refine store_of_fin _ (fun h => quantize_on_grid h) (fun h0 h1 => ?_)
    rw [hw] at h0 h1 ⊢
    exact sum_on_coarse_grid h0 h1

/-- The code `ConvertToTiff` stores in `float` arithmetic is the specified value
(round half away from zero, then clamp) of the float it computed for
`tempVal * 100 + 10000`. -/
theorem encodeFixedF32_eq_spec (t : ℚ) :
    encodedFloatF32 t ≠ Reading.nan ∧
    encodeFixedF32 t = specClampRound (encodedFloatF32 t) := by
  unfold encodeFixedF32 encodedFloatF32 mulF32
  have hcases : roundF32 (t * 100) = Reading.posInf ∨ roundF32 (t * 100) = Reading.negInf ∨
      roundF32 (t * 100) = Reading.fin (quantize (t * 100)) := by
    unfold roundF32
    split_ifs
    · exact Or.inl rfl
    · exact Or.inr (Or.inl rfl)
    · exact Or.inr (Or.inr rfl)
  rcases hcases with h | h | h
  · rw [h]
    exact ⟨by simp [addF32], store_top⟩
  · rw [h]
    exact ⟨by simp [addF32], store_zero⟩
  · rw [h]
    exact store_of_sum _ ⟨_, rfl⟩

theorem rne_eq_of_near {q : ℚ} {m : ℤ} (h1 : (m : ℚ) - 1 / 2 < q) (h2 : q < (m : ℚ) + 1 / 2) :
    roundNearestEven q = m := by
  unfold roundNearestEven
  rcases le_or_lt (m : ℚ) q with hge | hlt
  · have hf : ⌊q⌋ = m := by
      rw [Int.floor_eq_iff]
      constructor <;> linarith
    rw [hf, if_pos (by linarith)]
  · have hf : ⌊q⌋ = m - 1 := by
      rw [Int.floor_eq_iff]
      push_cast
      constructor <;> linarith
    rw [hf]
    push_cast
    rw [if_neg (by linarith), if_pos (by linarith)]
    ring

theorem rne_tie_odd {q : ℚ} {m : ℤ} (h : q = (m : ℚ) + 1 / 2) (hodd : m % 2 = 1) :
    roundNearestEven q = m + 1 := by
  unfold roundNearestEven
  have hf : ⌊q⌋ = m := by
    rw [Int.floor_eq_iff]
    constructor <;> linarith
  rw [hf, if_neg (by linarith), if_neg (by linarith), if_neg (by omega)]

/-- The float computed for `234.35498046875 * 100 + 10000` is `33435.5`: the
product is exact and the sum `33435.498046875` lies halfway between two floats. -/
theorem encodedFloatF32_off_by_one :
    encodedFloatF32 (479959 / 2048) = Reading.fin (66871 / 2) := by
  have hmul : roundF32 (479959 / 2048 * 100) = Reading.fin (11998975 / 512) := by
    have hv : (479959 / 2048 * 100 : ℚ) = 11998975 / 512 := by norm_num
    have hu : ulpExp (11998975 / 512 : ℚ) = 14 - 23 :=
      ulpExp_of_binade (by norm_num) (by norm_num) (by norm_num)
    rw [hv]
    exact roundF32_exact (N := 11998975) (g := -9) (by norm_num) (by rw [hu]; norm_num)
      (by rw [abs_of_pos (by norm_num)]; norm_num)
  have hadd : roundF32 (11998975 / 512 + 10000) = Reading.fin (66871 / 2) := by
    have hv : (11998975 / 512 + 10000 : ℚ) = 17118975 / 512 := by norm_num
    have hu : ulpExp (17118975 / 512 : ℚ) = 15 - 23 :=
      ulpExp_of_binade (by norm_num) (by norm_num) (by norm_num)
    have hq : quantize (17118975 / 512) = 66871 / 2 := by
      unfold quantize
      rw [hu, rne_tie_odd (m := 8559487) (by norm_num) (by norm_num)]
      norm_num
    rw [hv, roundF32_of_lt (by rw [hq, abs_of_pos (by norm_num)]; norm_num), hq]
  unfold encodedFloatF32 mulF32
  rw [hmul]
  exact hadd

/-- The float nearest to `23.45`. -/
theorem roundF32_of_23_45 : roundF32 (2345 / 100) = Reading.fin (6147277 / 262144) := by
  have hu : ulpExp (2345 / 100 : ℚ) = 4 - 23 :=
    ulpExp_of_binade (by norm_num) (by norm_num) (by norm_num)
  have hq : quantize (2345 / 100) = 6147277 / 262144 := by
    unfold quantize
    rw [hu, rne_eq_of_near (m := 12294554) (by norm_num) (by norm_num)]
    norm_num
  rw [roundF32_of_lt (by rw [hq, abs_of_pos (by norm_num)]; norm_num), hq]

theorem encodedFloatF32_of_23_45 :
    encodedFloatF32 (6147277 / 262144) = Reading.fin 12345 := by
  have hmul : roundF32 (6147277 / 262144 * 100) = Reading.fin 2345 := by
    have hv : (6147277 / 262144 * 100 : ℚ) = 153681925 / 65536 := by norm_num
    have hu : ulpExp (153681925 / 65536 : ℚ) = 11 - 23 :=
      ulpExp_of_binade (by norm_num) (by norm_num) (by norm_num)
    have hq : quantize (153681925 / 65536) = 2345 := by
      unfold quantize
      rw [hu, rne_eq_of_near (m := 9605120) (by norm_num) (by norm_num)]
      norm_num
    rw [hv, roundF32_of_lt (by rw [hq, abs_of_pos (by norm_num)]; norm_num), hq]
  have hadd : roundF32 (2345 + 10000) = Reading.fin 12345 := by
    have hv : (2345 + 10000 : ℚ) = 12345 := by norm_num
    have hu : ulpExp (12345 : ℚ) = 13 - 23 :=
      ulpExp_of_binade (by norm_num) (by norm_num) (by norm_num)
    rw [hv]
    exact roundF32_exact (N := 12345) (g := 0) (by norm_num) (by rw [hu]; norm_num)
      (by rw [abs_of_pos (by norm_num)]; norm_num)
  unfold encodedFloatF32 mulF32
  rw [hmul]
  exact hadd

theorem encodedFloatF32_of_minus_5 : encodedFloatF32 (-5) = Reading.fin 9500 := by
  have hmul : roundF32 (-5 * 100) = Reading.fin (-500) := by
    have hv : (-5 * 100 : ℚ) = -500 := by norm_num
    have hu : ulpExp (-500 : ℚ) = 8 - 23 := by
      rw [ulpExp_neg]
      exact ulpExp_of_binade (by norm_num) (by norm_num) (by norm_num)
    rw [hv]
    exact roundF32_exact (N := -500) (g := 0) (by norm_num) (by rw [hu]; norm_num)
      (by rw [abs_of_neg (by norm_num)]; norm_num)
  have hadd : roundF32 (-500 + 10000) = Reading.fin 9500 := by
    have hv : (-500 + 10000 : ℚ) = 9500 := by norm_num
    have hu : ulpExp (9500 : ℚ) = 13 - 23 :=
      ulpExp_of_binade (by norm_num) (by norm_num) (by norm_num)
    rw [hv]
    exact roundF32_exact (N := 9500) (g := 0) (by norm_num) (by rw [hu]; norm_num)
      (by rw [abs_of_pos (by norm_num)]; norm_num)
  unfold encodedFloatF32 mulF32
  rw [hmul]
  exact hadd

theorem specClampRound_fin_nat (n : ℕ) (h : n ≤ 65535) :
    specClampRound (Reading.fin (n : ℚ)) = n := by
  have hr : roundHalfAway (n : ℚ) = (n : ℤ) := by
    unfold roundHalfAway
    rw [if_pos (by positivity), Int.floor_eq_iff]
    push_cast
    constructor <;> linarith
  simp only [specClampRound]
  rw [hr, min_eq_right (by omega), max_eq_right (by omega)]
  rfl

/-- C7, as stated, fails: `234.35498046875` is a float below the threshold;
the program computes the product `23435.498046875` exactly, rounds the sum
`33435.498046875` to the float `33435.5` and stores `33436`, while the
specified `clamp(round(t * 100 + 10000), 0, 65535)` is `33435`. -/
theorem fixed_code_float_off_by_one :
    roundF32 (479959 / 2048) = Reading.fin (479959 / 2048) ∧
    isInvalid 60000 (Reading.fin (479959 / 2048)) = false ∧
    encodeFixedF32 (479959 / 2048) = 33436 ∧
    specEncodeFixed (479959 / 2048) = 33435 ∧
    encodeFixedF32 (479959 / 2048) ≠ specEncodeFixed (479959 / 2048) := by
  have hfloat : roundF32 (479959 / 2048) = Reading.fin (479959 / 2048) := by
    have hu : ulpExp (479959 / 2048 : ℚ) = 7 - 23 :=
      ulpExp_of_binade (by norm_num) (by norm_num) (by norm_num)
    exact roundF32_exact (N := 479959) (g := -11) (by norm_num) (by rw [hu]; norm_num)
      (by rw [abs_of_pos (by norm_num)]; norm_num)
  have hcode : encodeFixedF32 (479959 / 2048) = 33436 := by
    rw [(encodeFixedF32_eq_spec (479959 / 2048)).2, encodedFloatF32_off_by_one]
    have hr : roundHalfAway (66871 / 2) = 33436 := by
      unfold roundHalfAway
      rw [if_pos (by norm_num), Int.floor_eq_iff]
      norm_num
    simp only [specClampRound]
    rw [hr]
    rfl
  have hspec : specEncodeFixed (479959 / 2048) = 33435 := by
    have hr : roundHalfAway (479959 / 2048 * 100 + 10000) = 33435 := by
      unfold roundHalfAway
      rw [if_pos (by norm_num), Int.floor_eq_iff]
      norm_num
    unfold specEncodeFixed
    rw [hr]
    rfl
  refine ⟨hfloat, by norm_num [isInvalid], hcode, hspec, ?_⟩
  rw [hcode, hspec]
  decide

/-- C7, amended: for every sanitized finite temperature the code `ConvertToTiff`
stores (clamp first, then add 0.5 and truncate, in `float` arithmetic) equals
`clamp(round(x), 0, 65535)` with round-half-away-from-zero, where `x` is the
float the program computed for `t * 100 + 10000`; the two orders of clamping
and rounding agree on every input, also below `0`, above `65535` and at
infinity.  Read as exact arithmetic the same holds with `x = t * 100 + 10000`.
The float nearest `23.45` gives `12345` and `-5.00` gives `9500`. -/
theorem encodeFixedF32_refines_spec :
    (∀ t : ℚ, encodedFloatF32 t ≠ Reading.nan ∧
      encodeFixedF32 t = specClampRound (encodedFloatF32 t)) ∧
    (∀ t : ℚ, encodeFixed t = specEncodeFixed t) ∧
    roundF32 (2345 / 100) = Reading.fin (6147277 / 262144) ∧
    encodeFixedF32 (6147277 / 262144) = 12345 ∧
    encodeFixedF32 (-5) = 9500 := by
  refine ⟨encodeFixedF32_eq_spec, encodeFixed_exact_refines_spec.1, roundF32_of_23_45, ?_, ?_⟩
  · rw [(encodeFixedF32_eq_spec _).2, encodedFloatF32_of_23_45]
    exact specClampRound_fin_nat 12345 (by norm_num)
  · rw [(encodeFixedF32_eq_spec _).2, encodedFloatF32_of_minus_5]
    exact specClampRound_fin_nat 9500 (by norm_num)

end AutelThermal
